import Mathlib

set_option maxHeartbeats 1000000

/-!
Verification of the chunk-manifest subsystem described in the VirtualiZarr
design specification.  The repository sources contain only packaging and CI
configuration, so every definition below is a faithful shallow embedding of
the specification text (sections 3, 4, 6 and 7), marked accordingly.
-/

/-- Modelled from the spec: the error taxonomy of section 7 (the subsystem's
implementation is absent from the repository sources).  The encoding
incompatibility error carries the offending pair of input indices and the
name of the mismatching field. -/
inductive VError where
  | ShapeError : VError
  | GeometryError : VError
  | AlignmentError : VError
  | IncompatibleEncodingError : Nat → Nat → String → VError
  | PartialChunkAlignmentError : VError
  | DimensionSizeMismatchError : VError
  | VariableConflictError : VError
  | MalformedReferenceError : VError
  | UnsupportedOperationError : VError
  deriving DecidableEq, Repr

/-- Modelled from the spec: a ChunkEntry records one chunk's location and
byte extent within a source file (section 3); immutable once created. -/
structure ChunkEntry where
  path : String
  offset : Nat
  length : Nat
  deriving DecidableEq, Repr

/-- Modelled from the spec: a ChunkManifest is a dense N-dimensional grid of
ChunkEntry-or-absent cells (section 3).  The grid is stored canonically as
its per-dimension size together with the row-major list of cells; a cell
holding `none` is the "absent" marker. -/
structure ChunkManifest where
  grid_size : List Nat
  cells : List (Option ChunkEntry)
  deriving DecidableEq, Repr

/-- Row-major enumeration of all coordinates of a rectangular grid. -/
def allCoords : List Nat → List (List Nat)
  | [] => [[]]
  | n :: ns => (List.range n).flatMap (fun i => (allCoords ns).map (fun c => i :: c))

/-- Row-major flat index of a coordinate inside a grid, `none` when the
coordinate is out of range or of the wrong dimensionality. -/
def flatIndex : List Nat → List Nat → Option Nat
  | [], [] => some 0
  | n :: ns, i :: is => if i < n then (flatIndex ns is).map (fun j => i * ns.prod + j) else none
  | _, _ => none

/-- Whether a coordinate lies inside a rectangular grid (componentwise). -/
def inBounds : List Nat → List Nat → Bool
  | [], [] => true
  | n :: ns, i :: is => decide (i < n) && inBounds ns is
  | _, _ => false

/-- Modelled from the spec: lookup by coordinate (section 4.1); returns
`none` for an out-of-range coordinate and `some cell` otherwise, where the
cell is the entry or the absent marker. -/
def ChunkManifest.lookup? (m : ChunkManifest) (c : List Nat) : Option (Option ChunkEntry) :=
  (flatIndex m.grid_size c).bind fun j => m.cells[j]?

/-- The cell stored at a coordinate, with "absent" as the default. -/
def ChunkManifest.cell (m : ChunkManifest) (c : List Nat) : Option ChunkEntry :=
  (m.lookup? c).getD none

/-- Well-formedness of the canonical representation: exactly one cell per
grid coordinate. -/
def ChunkManifest.wf (m : ChunkManifest) : Bool :=
  m.cells.length == m.grid_size.prod

/-- Modelled from the spec: first-match lookup in a coordinate-to-cell
association list used by the ChunkManifest constructor. -/
def lookupCellZ (k : List Int) : List (List Int × Option ChunkEntry) → Option ChunkEntry
  | [] => none
  | (k₂, e) :: rest => if k = k₂ then e else lookupCellZ k rest

/-- Modelled from the spec: ChunkManifest construction from a dense
coordinate-to-entry mapping (section 4.1).  It rejects construction with a
ShapeError if any coordinate component is negative, or if the coordinate
set is not exactly the perfect rectangular grid starting at the origin
(no gap, no duplicate, no out-of-range coordinate). -/
def ChunkManifest.fromMapping (grid : List Nat)
    (entries : List (List Int × Option ChunkEntry)) : Except VError ChunkManifest :=
  let keys := entries.map Prod.fst
  if entries.all (fun p => p.1.all (fun x => decide (0 ≤ x))) &&
     (allCoords grid).all (fun c => keys.count (c.map Int.ofNat) == 1) &&
     (keys.length == grid.prod)
  then .ok ⟨grid, (allCoords grid).map (fun c => lookupCellZ (c.map Int.ofNat) entries)⟩
  else .error .ShapeError

/-- Modelled from the spec: the per-variable encoding metadata of section 3:
dtype, codec chain, fill value and chunk shape. -/
structure Encoding where
  dtype : String
  codecs : List String
  fill_value : Int
  chunk_shape : List Nat
  deriving DecidableEq, Repr

/-- One-dimensional geometry relation of section 3: the array extent `s`
rounds up, via the chunk extent `c`, to the grid extent `g`. -/
def geomOk1 (s c g : Nat) : Bool :=
  decide (0 < c) && decide (0 < s) && ((s + c - 1) / c == g)

/-- Modelled from the spec: the shape/chunk_shape/grid_size validation of
section 4.2, dimension by dimension. -/
def checkGeometry (shape chunk grid : List Nat) : Bool :=
  (shape.length == chunk.length) && (shape.length == grid.length) &&
  (List.range shape.length).all
    (fun i => geomOk1 (shape.getD i 0) (chunk.getD i 1) (grid.getD i 0))

/-- Modelled from the spec: a ManifestArray is a virtual array: shape,
encoding and one ChunkManifest (section 3). -/
structure ManifestArray where
  shape : List Nat
  encoding : Encoding
  manifest : ChunkManifest
  deriving DecidableEq, Repr

/-- Modelled from the spec: the validating ManifestArray constructor of
section 4.2; fails with GeometryError when the shape/chunk_shape/grid_size
relationship does not hold. -/
def ManifestArray.mk? (shape : List Nat) (enc : Encoding) (man : ChunkManifest) :
    Except VError ManifestArray :=
  if checkGeometry shape enc.chunk_shape man.grid_size then .ok ⟨shape, enc, man⟩
  else .error .GeometryError

/-- A ManifestArray as produced by the validating constructor from a
well-formed manifest: geometry holds and the manifest is dense. -/
def ManifestArray.valid (a : ManifestArray) : Bool :=
  checkGeometry a.shape a.encoding.chunk_shape a.manifest.grid_size && a.manifest.wf

theorem length_flatMap_range {α : Type} (B : Nat → List α) (p : Nat)
    (hp : ∀ i, (B i).length = p) : ∀ n, ((List.range n).flatMap B).length = n * p := by
  intro n
  induction n with
  | zero => simp
  | succ n ih =>
    rw [List.range_succ, List.flatMap_append, List.length_append, ih]
    simp [hp n, Nat.succ_mul]

theorem flatMap_range_getElem? {α : Type} (B : Nat → List α) (p : Nat)
    (hp : ∀ i, (B i).length = p) :
    ∀ n i j, i < n → j < p → ((List.range n).flatMap B)[i * p + j]? = (B i)[j]? := by
  intro n
  induction n with
  | zero => intro i j hi _; exact absurd hi (Nat.not_lt_zero i)
  | succ n ih =>
    intro i j hi hj
    rw [List.range_succ, List.flatMap_append]
    rcases Nat.lt_or_ge i n with h | h
    · rw [List.getElem?_append_left]
      · exact ih i j h hj
      · rw [length_flatMap_range B p hp]
        have e1 : (i + 1) * p = i * p + p := by ring
        have h2 : (i + 1) * p ≤ n * p := Nat.mul_le_mul_right p (by omega)
        omega
    · have hi2 : i = n := by omega
      subst hi2
      rw [List.getElem?_append_right]
      · rw [length_flatMap_range B p hp]
        have hone : ([i].flatMap B) = B i ++ [] := by simp [List.flatMap]
        rw [hone, List.append_nil]
        congr 1
        omega
      · rw [length_flatMap_range B p hp]; omega

theorem length_allCoords : ∀ g : List Nat, (allCoords g).length = g.prod := by
  intro g
  induction g with
  | nil => simp [allCoords]
  | cons n ns ih =>
    rw [allCoords, List.prod_cons]
    exact length_flatMap_range _ _ (fun i => by simp [ih]) n

theorem flatIndex_lt_prod : ∀ (g c : List Nat) (j : Nat),
    flatIndex g c = some j → j < g.prod := by
  intro g
  induction g with
  | nil =>
    intro c j h
    cases c with
    | nil => simp [flatIndex] at h; simp [h.symm]
    | cons i is => simp [flatIndex] at h
  | cons n ns ih =>
    intro c j h
    cases c with
    | nil => simp [flatIndex] at h
    | cons i is =>
      simp only [flatIndex] at h
      split at h
      · rw [Option.map_eq_some'] at h
        obtain ⟨j2, hj2, rfl⟩ := h
        have hlt := ih is j2 hj2
        rw [List.prod_cons]
        have h2 : (i + 1) * ns.prod ≤ n * ns.prod :=
          Nat.mul_le_mul_right ns.prod (by omega)
        have e1 : (i + 1) * ns.prod = i * ns.prod + ns.prod := by ring
        omega
      · exact absurd h (by simp)

theorem flatIndex_isSome_of_inBounds : ∀ (g c : List Nat),
    inBounds g c = true → ∃ j, flatIndex g c = some j := by
  intro g
  induction g with
  | nil =>
    intro c h
    cases c with
    | nil => exact ⟨0, rfl⟩
    | cons i is => simp [inBounds] at h
  | cons n ns ih =>
    intro c h
    cases c with
    | nil => simp [inBounds] at h
    | cons i is =>
      simp only [inBounds, Bool.and_eq_true, decide_eq_true_eq] at h
      obtain ⟨j2, hj2⟩ := ih is h.2
      exact ⟨i * ns.prod + j2, by simp [flatIndex, h.1, hj2]⟩

theorem allCoords_getElem?_of_flatIndex : ∀ (g c : List Nat) (j : Nat),
    flatIndex g c = some j → (allCoords g)[j]? = some c := by
  intro g
  induction g with
  | nil =>
    intro c j h
    cases c with
    | nil => simp [flatIndex] at h; simp [allCoords, h.symm]
    | cons i is => simp [flatIndex] at h
  | cons n ns ih =>
    intro c j h
    cases c with
    | nil => simp [flatIndex] at h
    | cons i is =>
      simp only [flatIndex] at h
      split at h
      case isTrue hin =>
        rw [Option.map_eq_some'] at h
        obtain ⟨j2, hj2, rfl⟩ := h
        rw [allCoords]
        rw [flatMap_range_getElem? _ ns.prod (fun k => by simp [length_allCoords])
          n i j2 hin (flatIndex_lt_prod ns is j2 hj2)]
        simp [ih is j2 hj2]
      case isFalse => exact absurd h (by simp)

theorem flatIndex_of_allCoords_getElem? : ∀ (g : List Nat) (j : Nat) (c : List Nat),
    (allCoords g)[j]? = some c → flatIndex g c = some j := by
  intro g
  induction g with
  | nil =>
    intro j c h
    have hj : j = 0 := by
      by_contra hne
      rw [List.getElem?_eq_none (by simp [allCoords]; omega)] at h
      exact absurd h (by simp)
    subst hj
    simp [allCoords] at h
    subst h
    rfl
  | cons n ns ih =>
    intro j c h
    have hjlt : j < (allCoords (n :: ns)).length := by
      by_contra hge
      rw [List.getElem?_eq_none (by omega)] at h
      exact absurd h (by simp)
    rw [length_allCoords, List.prod_cons] at hjlt
    have hP : 0 < ns.prod := by
      rcases Nat.eq_zero_or_pos ns.prod with h0 | h0
      · rw [h0] at hjlt; omega
      · exact h0
    have hdecomp : j = (j / ns.prod) * ns.prod + j % ns.prod := by
      have h1 := Nat.div_add_mod j ns.prod
      have h2 : (j / ns.prod) * ns.prod = ns.prod * (j / ns.prod) := Nat.mul_comm _ _
      omega
    have hilt : j / ns.prod < n := by
      rw [Nat.div_lt_iff_lt_mul hP]
      omega
    have hjm : j % ns.prod < ns.prod := Nat.mod_lt _ hP
    rw [allCoords, hdecomp,
      flatMap_range_getElem? _ ns.prod (fun k => by simp [length_allCoords])
        n (j / ns.prod) (j % ns.prod) hilt hjm] at h
    rw [List.getElem?_map, Option.map_eq_some'] at h
    obtain ⟨is, his, rfl⟩ := h
    have hrec := ih (j % ns.prod) is his
    have hdm := Nat.div_add_mod j ns.prod
    have hcomm : (j / ns.prod) * ns.prod = ns.prod * (j / ns.prod) := Nat.mul_comm _ _
    simp [flatIndex, hilt, hrec]
    omega

theorem mem_allCoords : ∀ (g c : List Nat), c ∈ allCoords g ↔ inBounds g c = true := by
  intro g
  induction g with
  | nil =>
    intro c
    cases c with
    | nil => simp [allCoords, inBounds]
    | cons i is => simp [allCoords, inBounds]
  | cons n ns ih =>
    intro c
    rw [allCoords]
    simp only [List.mem_flatMap, List.mem_map, List.mem_range]
    constructor
    · rintro ⟨i, hi, is, his, rfl⟩
      simp [inBounds, hi, (ih is).mp his]
    · intro h
      cases c with
      | nil => simp [inBounds] at h
      | cons i is =>
        simp only [inBounds, Bool.and_eq_true, decide_eq_true_eq] at h
        exact ⟨i, h.1, is, (ih is).mpr h.2, rfl⟩

theorem nodup_allCoords : ∀ g : List Nat, (allCoords g).Nodup := by
  intro g
  induction g with
  | nil => simp [allCoords]
  | cons n ns ih =>
    rw [allCoords, List.nodup_flatMap]
    constructor
    · intro i _
      exact ih.map (fun a b hab => by injection hab)
    · refine (List.nodup_range n).imp ?_
      intro a b hab c hca hcb
      rw [List.mem_map] at hca hcb
      obtain ⟨x, _, hx⟩ := hca
      obtain ⟨y, _, hy⟩ := hcb
      rw [← hx] at hy
      injection hy with h1 _
      exact hab h1.symm

theorem cell_build (g : List Nat) (f : List Nat → Option ChunkEntry) (c : List Nat)
    (hc : inBounds g c = true) :
    ChunkManifest.cell ⟨g, (allCoords g).map f⟩ c = f c := by
  obtain ⟨j, hj⟩ := flatIndex_isSome_of_inBounds g c hc
  have hcoord := allCoords_getElem?_of_flatIndex g c j hj
  simp [ChunkManifest.cell, ChunkManifest.lookup?, hj, hcoord]

theorem map_cell_allCoords (m : ChunkManifest) (hwf : m.wf = true) :
    (allCoords m.grid_size).map m.cell = m.cells := by
  have hlen : m.cells.length = m.grid_size.prod := by
    simpa [ChunkManifest.wf] using hwf
  apply List.ext_getElem?
  intro j
  rcases Nat.lt_or_ge j m.grid_size.prod with hj | hj
  · have hjl : j < (allCoords m.grid_size).length := by rw [length_allCoords]; exact hj
    obtain ⟨c, hc⟩ : ∃ c, (allCoords m.grid_size)[j]? = some c :=
      ⟨(allCoords m.grid_size)[j], List.getElem?_eq_some_iff.mpr ⟨hjl, rfl⟩⟩
    rw [List.getElem?_map, hc]
    have hfi := flatIndex_of_allCoords_getElem? m.grid_size j c hc
    have hjc : j < m.cells.length := by omega
    obtain ⟨x, hx⟩ : ∃ x, m.cells[j]? = some x :=
      ⟨m.cells[j], List.getElem?_eq_some_iff.mpr ⟨hjc, rfl⟩⟩
    simp [ChunkManifest.cell, ChunkManifest.lookup?, hfi, hx]
  · rw [List.getElem?_eq_none (by simp [length_allCoords]; omega),
      List.getElem?_eq_none (by omega)]

theorem inBounds_length : ∀ {g c : List Nat}, inBounds g c = true → c.length = g.length := by
  intro g
  induction g with
  | nil => intro c h; cases c with
    | nil => rfl
    | cons i is => simp [inBounds] at h
  | cons n ns ih =>
    intro c h
    cases c with
    | nil => simp [inBounds] at h
    | cons i is =>
      simp only [inBounds, Bool.and_eq_true] at h
      simp [ih h.2]

theorem inBounds_getD : ∀ {g c : List Nat}, inBounds g c = true →
    ∀ i, i < g.length → c.getD i 0 < g.getD i 0 := by
  intro g
  induction g with
  | nil => intro c h i hi; simp at hi
  | cons n ns ih =>
    intro c h i hi
    cases c with
    | nil => simp [inBounds] at h
    | cons x xs =>
      simp only [inBounds, Bool.and_eq_true, decide_eq_true_eq] at h
      cases i with
      | zero => simpa using h.1
      | succ i =>
        simp only [List.getD_cons_succ]
        exact ih h.2 i (by simpa using hi)

theorem inBounds_of_getD : ∀ {g c : List Nat}, c.length = g.length →
    (∀ i, i < g.length → c.getD i 0 < g.getD i 0) → inBounds g c = true := by
  intro g
  induction g with
  | nil => intro c hl _; cases c with
    | nil => rfl
    | cons x xs => simp at hl
  | cons n ns ih =>
    intro c hl h
    cases c with
    | nil => simp at hl
    | cons x xs =>
      simp only [inBounds, Bool.and_eq_true, decide_eq_true_eq]
      constructor
      · simpa using h 0 (by simp)
      · exact ih (by simpa using hl) (fun i hi => by simpa using h (i + 1) (by simpa using hi))

theorem getD_set_self (l : List Nat) (i : Nat) (v : Nat) (h : i < l.length) :
    (l.set i v).getD i 0 = v := by
  rw [List.getD_eq_getElem?_getD, List.getElem?_set_self (by simpa using h)]
  rfl

theorem getD_set_ne (l : List Nat) (i j v : Nat) (h : i ≠ j) :
    (l.set i v).getD j 0 = l.getD j 0 := by
  rw [List.getD_eq_getElem?_getD, List.getD_eq_getElem?_getD, List.getElem?_set_ne h]

theorem set_getD_self (l : List Nat) (i : Nat) : l.set i (l.getD i 0) = l := by
  induction l generalizing i with
  | nil => rfl
  | cons x xs ih =>
    cases i with
    | zero => simp
    | succ i =>
      show x :: xs.set i ((x :: xs).getD (i + 1) 0) = x :: xs
      rw [List.getD_cons_succ, ih i]

theorem geomOk1_bounds {s c g : Nat} (h : geomOk1 s c g = true) :
    0 < c ∧ 0 < s ∧ g = (s + c - 1) / c ∧
    0 < s - (g - 1) * c ∧ s - (g - 1) * c ≤ c := by
  unfold geomOk1 at h
  simp only [Bool.and_eq_true, decide_eq_true_eq, beq_iff_eq] at h
  obtain ⟨⟨hc, hs⟩, hg⟩ := h
  refine ⟨hc, hs, hg.symm, ?_, ?_⟩ <;>
  · have hdm := Nat.div_add_mod (s + c - 1) c
    have hr : (s + c - 1) % c < c := Nat.mod_lt _ hc
    rcases hq : (s + c - 1) / c with _ | q
    · rw [hq] at hdm
      rw [hq] at hg
      simp at hdm
      omega
    · rw [hq] at hdm
      rw [hq] at hg
      have e1 : c * (q + 1) = c * q + c := by ring
      have e2 : q * c = c * q := Nat.mul_comm _ _
      subst hg
      simp only [Nat.add_sub_cancel]
      omega

/-- C10: every ManifestArray accepted by the validating constructor satisfies
the geometry invariant: for each dimension i, shape[i] rounds up via
chunk_shape[i] to grid_size[i], and the last chunk's logical extent
shape[i] - (grid_size[i]-1)*chunk_shape[i] is strictly positive and at most
chunk_shape[i]; a (shape, encoding, manifest) triple violating the
relationship is rejected with GeometryError. -/
theorem C10_manifestArray_geometry (shape : List Nat) (enc : Encoding) (man : ChunkManifest) :
    (∀ A, ManifestArray.mk? shape enc man = .ok A →
        A = ⟨shape, enc, man⟩ ∧
        shape.length = enc.chunk_shape.length ∧
        shape.length = man.grid_size.length ∧
        (∀ i, i < shape.length →
          man.grid_size.getD i 0 =
            (shape.getD i 0 + enc.chunk_shape.getD i 1 - 1) / enc.chunk_shape.getD i 1 ∧
          0 < shape.getD i 0 - (man.grid_size.getD i 0 - 1) * enc.chunk_shape.getD i 1 ∧
          shape.getD i 0 - (man.grid_size.getD i 0 - 1) * enc.chunk_shape.getD i 1 ≤
            enc.chunk_shape.getD i 1)) ∧
    (checkGeometry shape enc.chunk_shape man.grid_size = false →
        ManifestArray.mk? shape enc man = .error .GeometryError) := by
  constructor
  · intro A hA
    unfold ManifestArray.mk? at hA
    by_cases hcg : checkGeometry shape enc.chunk_shape man.grid_size = true
    · rw [if_pos hcg] at hA
      injection hA with hA
      unfold checkGeometry at hcg
      simp only [Bool.and_eq_true, beq_iff_eq, List.all_eq_true, List.mem_range] at hcg
      obtain ⟨⟨hl1, hl2⟩, hall⟩ := hcg
      refine ⟨hA.symm, hl1, hl2, ?_⟩
      intro i hi
      have hg := geomOk1_bounds (hall i hi)
      exact ⟨hg.2.2.1, hg.2.2.2.1, hg.2.2.2.2⟩
    · rw [if_neg hcg] at hA
      exact absurd hA (by simp)
  · intro hfalse
    unfold ManifestArray.mk?
    rw [if_neg (by simp [hfalse])]

theorem C10_manifestArray_geometry_witness :
    ([2] : List Nat).getD 0 0 =
      (([3] : List Nat).getD 0 0 + ([2] : List Nat).getD 0 1 - 1) /
        ([2] : List Nat).getD 0 1 := by
  have h := (C10_manifestArray_geometry [3] ⟨"i4", ["zlib"], 0, [2]⟩
      ⟨[2], [some ⟨"f1", 0, 7⟩, some ⟨"f1", 7, 5⟩]⟩).1
      ⟨[3], ⟨"i4", ["zlib"], 0, [2]⟩, ⟨[2], [some ⟨"f1", 0, 7⟩, some ⟨"f1", 7, 5⟩]⟩⟩ rfl
  exact (h.2.2.2 0 (by decide)).1

/-- C9: ChunkManifest construction from a coordinate-to-entry mapping raises
ShapeError whenever a coordinate component is negative or an in-grid
coordinate is missing from the mapping (no explicit absent marker), and a
successful construction implies the mapping was a dense rectangular grid
over the declared grid size: every in-grid coordinate occurs exactly once
and there are exactly as many keys as grid cells. -/
theorem C9_fromMapping_dense (grid : List Nat)
    (entries : List (List Int × Option ChunkEntry)) :
    ((∃ p, p ∈ entries ∧ ∃ x, x ∈ p.1 ∧ x < 0) →
        ChunkManifest.fromMapping grid entries = .error .ShapeError) ∧
    (∀ c : List Nat, inBounds grid c = true →
        (entries.map Prod.fst).count (c.map Int.ofNat) = 0 →
        ChunkManifest.fromMapping grid entries = .error .ShapeError) ∧
    (∀ m, ChunkManifest.fromMapping grid entries = .ok m →
        m.grid_size = grid ∧ m.wf = true ∧
        (∀ p ∈ entries, ∀ x ∈ p.1, 0 ≤ x) ∧
        (∀ c : List Nat, inBounds grid c = true →
          (entries.map Prod.fst).count (c.map Int.ofNat) = 1) ∧
        (entries.map Prod.fst).length = grid.prod) := by
  refine ⟨?_, ?_, ?_⟩
  · rintro ⟨p, hp, x, hx, hneg⟩
    simp only [ChunkManifest.fromMapping]
    split
    case isTrue hcond =>
      exfalso
      simp only [Bool.and_eq_true, List.all_eq_true, decide_eq_true_eq, beq_iff_eq] at hcond
      have := hcond.1.1 p hp x hx
      omega
    case isFalse => rfl
  · intro c hc hcount
    simp only [ChunkManifest.fromMapping]
    split
    case isTrue hcond =>
      exfalso
      simp only [Bool.and_eq_true, List.all_eq_true, decide_eq_true_eq, beq_iff_eq] at hcond
      have := hcond.1.2 c ((mem_allCoords grid c).mpr hc)
      omega
    case isFalse => rfl
  · intro m hm
    simp only [ChunkManifest.fromMapping] at hm
    split at hm
    case isTrue hcond =>
      injection hm with hm
      subst hm
      simp only [Bool.and_eq_true, List.all_eq_true, decide_eq_true_eq, beq_iff_eq] at hcond
      refine ⟨rfl, ?_, hcond.1.1,
        fun c hc => hcond.1.2 c ((mem_allCoords grid c).mpr hc), hcond.2⟩
      simp [ChunkManifest.wf, length_allCoords]
    case isFalse => exact absurd hm (by simp)

theorem C9_fromMapping_dense_witness :
    ChunkManifest.fromMapping [3]
      [([0], some ⟨"f", 0, 5⟩), ([2], some ⟨"f", 5, 5⟩)] = .error .ShapeError := by
  exact (C9_fromMapping_dense [3]
    [([0], some ⟨"f", 0, 5⟩), ([2], some ⟨"f", 5, 5⟩)]).2.1 [1] (by decide) (by decide)

/-- Modelled from the spec: field-by-field encoding compatibility test of
section 4.3 step 1; yields the name of the first mismatching field among
dtype, codec chain and fill value. -/
def encodingMismatchField (e₁ e₂ : Encoding) : Option String :=
  if e₁.dtype ≠ e₂.dtype then some "dtype"
  else if e₁.codecs ≠ e₂.codecs then some "codecs"
  else if e₁.fill_value ≠ e₂.fill_value then some "fill_value"
  else none

/-- Modelled from the spec: scan for the first input whose encoding is
incompatible with the first input (step 1 of the concatenation algorithm);
`k` is the index of the head of the remaining list. -/
def findEncodingMismatch (e₀ : Encoding) : List ManifestArray → Nat → Option (Nat × String)
  | [], _ => none
  | arr :: rest, k =>
    match encodingMismatchField e₀ arr.encoding with
    | some f => some (k, f)
    | none => findEncodingMismatch e₀ rest (k + 1)

/-- Componentwise equality of two lists at every index other than `a`. -/
def eqExcept (xs ys : List Nat) (a : Nat) : Bool :=
  (xs.length == ys.length) &&
  (List.range xs.length).all (fun i => (i == a) || (xs.getD i 0 == ys.getD i 0))

/-- Modelled from the spec: step 2 of the concatenation algorithm: the chunk
shape is identical on every axis except possibly `a`, and every input but
the last covers whole chunks along `a`, so that a remainder chunk may
appear only as the final chunk of the final input. -/
def chunkShapesOk (arrs : List ManifestArray) (a : Nat) : Bool :=
  match arrs with
  | [] => true
  | arr0 :: _ =>
    arrs.all (fun arr => eqExcept arr0.encoding.chunk_shape arr.encoding.chunk_shape a) &&
    arrs.dropLast.all
      (fun arr => arr.shape.getD a 0 % arr.encoding.chunk_shape.getD a 1 == 0)

/-- Modelled from the spec: step 3 of the concatenation algorithm: every
non-concatenation dimension has identical size across inputs. -/
def dimSizesOk (arrs : List ManifestArray) (a : Nat) : Bool :=
  match arrs with
  | [] => true
  | arr0 :: _ => arrs.all (fun arr => eqExcept arr0.shape arr.shape a)

/-- Modelled from the spec: step 4 of the concatenation algorithm, cell by
cell: find the input whose slab along axis `a` contains the coordinate and
read its cell at the coordinate shifted back by the cumulative offset. -/
def concatCell (a : Nat) : List ChunkManifest → List Nat → Option ChunkEntry
  | [], _ => none
  | m :: rest, c =>
    if c.getD a 0 < m.grid_size.getD a 0 then m.cell c
    else concatCell a rest (c.set a (c.getD a 0 - m.grid_size.getD a 0))

/-- Modelled from the spec: the manifest laid out by step 4 of the
concatenation algorithm: the grid along axis `a` is the sum of the input
grids, other axes are unchanged, and each cell is re-addressed from the
input owning it. -/
def concatManifest (ms : List ChunkManifest) (a : Nat) : ChunkManifest :=
  match ms with
  | [] => ⟨[], []⟩
  | m0 :: _ =>
    let g := m0.grid_size.set a (ms.map (fun m => m.grid_size.getD a 0)).sum
    ⟨g, (allCoords g).map (concatCell a ms)⟩

/-- Modelled from the spec: step 5 of the concatenation algorithm: the
result shape along axis `a` is the sum of the input shapes along `a`, other
axes unchanged; the encoding is the first input's; the manifest is the
re-addressed layout of step 4. -/
def buildConcat (arr0 : ManifestArray) (rest : List ManifestArray) (a : Nat) : ManifestArray :=
  ⟨arr0.shape.set a (((arr0 :: rest).map (fun arr => arr.shape.getD a 0)).sum),
   arr0.encoding,
   concatManifest ((arr0 :: rest).map ManifestArray.manifest) a⟩

/-- Modelled from the spec: the concatenation algorithm of section 4.3:
verify encoding compatibility, chunk alignment and dimension sizes, then
build the result by pure reindexing, in the caller-supplied input order. -/
def concat (arrs : List ManifestArray) (a : Nat) : Except VError ManifestArray :=
  match arrs with
  | [] => .error .UnsupportedOperationError
  | arr0 :: rest =>
    match findEncodingMismatch arr0.encoding rest 1 with
    | some kf => .error (.IncompatibleEncodingError 0 kf.1 kf.2)
    | none =>
      if chunkShapesOk (arr0 :: rest) a then
        if dimSizesOk (arr0 :: rest) a then .ok (buildConcat arr0 rest a)
        else .error .DimensionSizeMismatchError
      else .error .PartialChunkAlignmentError

theorem encodingMismatchField_none {e₁ e₂ : Encoding}
    (h : encodingMismatchField e₁ e₂ = none) :
    e₁.dtype = e₂.dtype ∧ e₁.codecs = e₂.codecs ∧ e₁.fill_value = e₂.fill_value := by
  unfold encodingMismatchField at h
  split at h
  · exact absurd h (by simp)
  · split at h
    · exact absurd h (by simp)
    · split at h
      · exact absurd h (by simp)
      · rename_i h1 h2 h3
        exact ⟨not_not.mp h1, not_not.mp h2, not_not.mp h3⟩

theorem findEncodingMismatch_none_spec (e₀ : Encoding) :
    ∀ (rest : List ManifestArray) (k : Nat), findEncodingMismatch e₀ rest k = none →
      ∀ arr ∈ rest, e₀.dtype = arr.encoding.dtype ∧ e₀.codecs = arr.encoding.codecs ∧
        e₀.fill_value = arr.encoding.fill_value := by
  intro rest
  induction rest with
  | nil => intro k _ arr ha; simp at ha
  | cons x xs ih =>
    intro k h arr ha
    rw [findEncodingMismatch] at h
    rcases hm : encodingMismatchField e₀ x.encoding with _ | f
    · rw [hm] at h
      rcases List.mem_cons.mp ha with rfl | hxs
      · exact encodingMismatchField_none hm
      · exact ih (k + 1) h arr hxs
    · rw [hm] at h
      exact absurd h (by simp)

theorem eqExcept_refl (xs : List Nat) (a : Nat) : eqExcept xs xs a = true := by
  simp [eqExcept, List.all_eq_true]

theorem eqExcept_spec {xs ys : List Nat} {a : Nat} (h : eqExcept xs ys a = true) :
    xs.length = ys.length ∧ ∀ i, i < xs.length → i ≠ a → xs.getD i 0 = ys.getD i 0 := by
  unfold eqExcept at h
  simp only [Bool.and_eq_true, beq_iff_eq, List.all_eq_true, List.mem_range,
    Bool.or_eq_true] at h
  refine ⟨h.1, fun i hi hia => ?_⟩
  rcases h.2 i hi with h1 | h2
  · exact absurd h1 hia
  · exact h2

theorem eqExcept_intro {xs ys : List Nat} {a : Nat} (hl : xs.length = ys.length)
    (h : ∀ i, i < xs.length → i ≠ a → xs.getD i 0 = ys.getD i 0) :
    eqExcept xs ys a = true := by
  unfold eqExcept
  simp only [Bool.and_eq_true, beq_iff_eq, List.all_eq_true, List.mem_range,
    Bool.or_eq_true]
  refine ⟨hl, fun i hi => ?_⟩
  by_cases hia : i = a
  · exact Or.inl hia
  · exact Or.inr (h i hi hia)

theorem valid_facts {A : ManifestArray} (h : A.valid = true) :
    A.shape.length = A.encoding.chunk_shape.length ∧
    A.shape.length = A.manifest.grid_size.length ∧
    A.manifest.wf = true ∧
    ∀ i, i < A.shape.length →
      geomOk1 (A.shape.getD i 0) (A.encoding.chunk_shape.getD i 1)
        (A.manifest.grid_size.getD i 0) = true := by
  unfold ManifestArray.valid checkGeometry at h
  simp only [Bool.and_eq_true, beq_iff_eq, List.all_eq_true, List.mem_range] at h
  exact ⟨h.1.1.1, h.1.1.2, h.2, h.1.2⟩

theorem concat_cons_none (arr0 : ManifestArray) (rest : List ManifestArray) (a : Nat)
    (henc : findEncodingMismatch arr0.encoding rest 1 = none) :
    concat (arr0 :: rest) a =
      if chunkShapesOk (arr0 :: rest) a then
        if dimSizesOk (arr0 :: rest) a then .ok (buildConcat arr0 rest a)
        else .error .DimensionSizeMismatchError
      else .error .PartialChunkAlignmentError := by
  unfold concat
  dsimp only
  rw [henc]

theorem concat_cons_some (arr0 : ManifestArray) (rest : List ManifestArray) (a : Nat)
    (kf : Nat × String) (henc : findEncodingMismatch arr0.encoding rest 1 = some kf) :
    concat (arr0 :: rest) a = .error (.IncompatibleEncodingError 0 kf.1 kf.2) := by
  unfold concat
  dsimp only
  rw [henc]

theorem concat_ok_inv {arrs : List ManifestArray} {a : Nat} {R : ManifestArray}
    (h : concat arrs a = .ok R) :
    ∃ arr0 rest, arrs = arr0 :: rest ∧
      findEncodingMismatch arr0.encoding rest 1 = none ∧
      chunkShapesOk arrs a = true ∧ dimSizesOk arrs a = true ∧
      R = buildConcat arr0 rest a := by
  cases arrs with
  | nil => exact absurd h (by simp [concat])
  | cons arr0 rest =>
    rcases hm : findEncodingMismatch arr0.encoding rest 1 with _ | kf
    · rw [concat_cons_none arr0 rest a hm] at h
      by_cases h1 : chunkShapesOk (arr0 :: rest) a = true
      · rw [if_pos h1] at h
        by_cases h2 : dimSizesOk (arr0 :: rest) a = true
        · rw [if_pos h2] at h
          injection h with h
          exact ⟨arr0, rest, rfl, hm, h1, h2, h.symm⟩
        · rw [if_neg h2] at h
          exact absurd h (by simp)
      · rw [if_neg h1] at h
        exact absurd h (by simp)
    · rw [concat_cons_some arr0 rest a kf hm] at h
      exact absurd h (by simp)

/-- C4: when any pair of inputs disagrees on dtype, codec chain or fill
value, concatenation along any axis fails with IncompatibleEncodingError
naming an offending pair and field — never a silent coercion. -/
theorem C4_concat_incompatible_encoding (arrs : List ManifestArray) (a : Nat)
    (i j : Nat) (hi : i < arrs.length) (hj : j < arrs.length)
    (hne : (arrs.get ⟨i, hi⟩).encoding.dtype ≠ (arrs.get ⟨j, hj⟩).encoding.dtype ∨
           (arrs.get ⟨i, hi⟩).encoding.codecs ≠ (arrs.get ⟨j, hj⟩).encoding.codecs ∨
           (arrs.get ⟨i, hi⟩).encoding.fill_value ≠ (arrs.get ⟨j, hj⟩).encoding.fill_value) :
    ∃ k f, concat arrs a = .error (.IncompatibleEncodingError 0 k f) := by
  cases arrs with
  | nil => simp at hi
  | cons arr0 rest =>
    rcases hm : findEncodingMismatch arr0.encoding rest 1 with _ | kf
    · exfalso
      have hall := findEncodingMismatch_none_spec arr0.encoding rest 1 hm
      have hfacts : ∀ (idx : Nat) (h : idx < (arr0 :: rest).length),
          arr0.encoding.dtype = ((arr0 :: rest).get ⟨idx, h⟩).encoding.dtype ∧
          arr0.encoding.codecs = ((arr0 :: rest).get ⟨idx, h⟩).encoding.codecs ∧
          arr0.encoding.fill_value = ((arr0 :: rest).get ⟨idx, h⟩).encoding.fill_value := by
        intro idx h
        cases idx with
        | zero => exact ⟨rfl, rfl, rfl⟩
        | succ idx =>
          exact hall (rest.get ⟨idx, by simpa using h⟩) (List.get_mem rest _ _)
      have h1 := hfacts i hi
      have h2 := hfacts j hj
      rcases hne with h | h | h
      · exact h (h1.1.symm.trans h2.1)
      · exact h (h1.2.1.symm.trans h2.2.1)
      · exact h (h1.2.2.symm.trans h2.2.2)
    · exact ⟨kf.1, kf.2, concat_cons_some arr0 rest a kf hm⟩

theorem C4_concat_incompatible_encoding_witness :
    ∃ k f, concat [⟨[4], ⟨"i4", ["z"], 0, [2]⟩, ⟨[2], [none, none]⟩⟩,
                   ⟨[4], ⟨"f8", ["z"], 0, [2]⟩, ⟨[2], [none, none]⟩⟩] 0 =
      .error (.IncompatibleEncodingError 0 k f) :=
  C4_concat_incompatible_encoding
    [⟨[4], ⟨"i4", ["z"], 0, [2]⟩, ⟨[2], [none, none]⟩⟩,
     ⟨[4], ⟨"f8", ["z"], 0, [2]⟩, ⟨[2], [none, none]⟩⟩] 0 0 1
    (by decide) (by decide) (Or.inl (by decide))

/-- C5: with encoding-compatible inputs, if a non-final input does not
cover whole chunks along the concatenation axis (so a chunk along `a`
other than the final chunk of the final input is partial), or the chunk
shape differs on an axis other than `a`, concatenation fails with
PartialChunkAlignmentError. -/
theorem C5_concat_partial_alignment (arr0 : ManifestArray) (rest : List ManifestArray)
    (a : Nat) (henc : findEncodingMismatch arr0.encoding rest 1 = none) :
    ((∃ k, k + 1 < (arr0 :: rest).length ∧
        ((arr0 :: rest).getD k arr0).shape.getD a 0 %
          ((arr0 :: rest).getD k arr0).encoding.chunk_shape.getD a 1 ≠ 0) →
      concat (arr0 :: rest) a = .error .PartialChunkAlignmentError) ∧
    ((∃ arr ∈ (arr0 :: rest),
        eqExcept arr0.encoding.chunk_shape arr.encoding.chunk_shape a = false) →
      concat (arr0 :: rest) a = .error .PartialChunkAlignmentError) := by
  have hcso : chunkShapesOk (arr0 :: rest) a = false →
      concat (arr0 :: rest) a = .error .PartialChunkAlignmentError := by
    intro hfalse
    rw [concat_cons_none arr0 rest a henc, if_neg (by simp [hfalse])]
  constructor
  · rintro ⟨k, hk, hmod⟩
    apply hcso
    cases hb : chunkShapesOk (arr0 :: rest) a
    · rfl
    · exfalso
      unfold chunkShapesOk at hb
      simp only [Bool.and_eq_true, List.all_eq_true, beq_iff_eq] at hb
      have hklen : k < (arr0 :: rest).length := by omega
      have hxsome : (arr0 :: rest)[k]? = some ((arr0 :: rest).getD k arr0) := by
        rw [List.getD_eq_getElem?_getD, List.getElem?_eq_getElem hklen]
        rfl
      have h1 : (arr0 :: rest).dropLast[k]? = some ((arr0 :: rest).getD k arr0) := by
        rw [List.getElem?_dropLast,
          if_pos (show k < (arr0 :: rest).length - 1 by omega)]
        exact hxsome
      obtain ⟨h2, h3⟩ := List.getElem?_eq_some_iff.mp h1
      have hmem : (arr0 :: rest).getD k arr0 ∈ (arr0 :: rest).dropLast :=
        h3 ▸ List.getElem_mem h2
      exact hmod (hb.2 _ hmem)
  · rintro ⟨arr, hmem, hfalse⟩
    apply hcso
    cases hb : chunkShapesOk (arr0 :: rest) a
    · rfl
    · exfalso
      unfold chunkShapesOk at hb
      simp only [Bool.and_eq_true, List.all_eq_true, beq_iff_eq] at hb
      have := hb.1 arr hmem
      rw [hfalse] at this
      exact absurd this (by simp)

theorem C5_concat_partial_alignment_witness :
    concat [⟨[3], ⟨"i4", ["z"], 0, [2]⟩, ⟨[2], [none, none]⟩⟩,
            ⟨[4], ⟨"i4", ["z"], 0, [2]⟩, ⟨[2], [none, none]⟩⟩] 0 =
      .error .PartialChunkAlignmentError :=
  (C5_concat_partial_alignment ⟨[3], ⟨"i4", ["z"], 0, [2]⟩, ⟨[2], [none, none]⟩⟩
    [⟨[4], ⟨"i4", ["z"], 0, [2]⟩, ⟨[2], [none, none]⟩⟩] 0 rfl).1
    ⟨0, by decide, by decide⟩

theorem concatManifest_singleton (m : ChunkManifest) (a : Nat)
    (hwf : m.wf = true) (ha : a < m.grid_size.length) :
    concatManifest [m] a = m := by
  unfold concatManifest
  dsimp only
  have hg : m.grid_size.set a ((List.map (fun x => x.grid_size.getD a 0) [m]).sum) =
      m.grid_size := by
    simp only [List.map_cons, List.map_nil, List.sum_cons, List.sum_nil, Nat.add_zero]
    exact set_getD_self _ _
  rw [hg]
  have hcells : (allCoords m.grid_size).map (concatCell a [m]) = m.cells := by
    rw [← map_cell_allCoords m hwf]
    apply List.map_congr_left
    intro c hc
    have hib := (mem_allCoords _ c).mp hc
    rw [concatCell, if_pos (inBounds_getD hib a ha)]
  rw [hcells]

/-- C6: concatenating the single-element list [A] along a valid axis
succeeds and returns a ManifestArray whose manifest (and shape and
encoding) is structurally equal to A's — the identity law. -/
theorem C6_concat_singleton (A : ManifestArray) (a : Nat)
    (hv : A.valid = true) (ha : a < A.shape.length) :
    ∃ R, concat [A] a = .ok R ∧ R.manifest = A.manifest ∧
      R.shape = A.shape ∧ R.encoding = A.encoding := by
  obtain ⟨hlc, hlg, hwf, hgeom⟩ := valid_facts hv
  have h1 : chunkShapesOk [A] a = true := by simp [chunkShapesOk, eqExcept_refl]
  have h2 : dimSizesOk [A] a = true := by simp [dimSizesOk, eqExcept_refl]
  refine ⟨buildConcat A [] a, ?_, ?_, ?_, rfl⟩
  · rw [concat_cons_none A [] a rfl, if_pos h1, if_pos h2]
  · show concatManifest [A.manifest] a = A.manifest
    exact concatManifest_singleton A.manifest a hwf (by omega)
  · show A.shape.set a ((List.map (fun arr => arr.shape.getD a 0) [A]).sum) = A.shape
    simp only [List.map_cons, List.map_nil, List.sum_cons, List.sum_nil, Nat.add_zero]
    exact set_getD_self _ _

theorem C6_concat_singleton_witness :
    ∃ R, concat [⟨[4], ⟨"i4", ["z"], 0, [2]⟩, ⟨[2], [some ⟨"a", 0, 10⟩, none]⟩⟩] 0 =
        .ok R ∧
      R.manifest =
        (⟨[4], ⟨"i4", ["z"], 0, [2]⟩, ⟨[2], [some ⟨"a", 0, 10⟩, none]⟩⟩ :
          ManifestArray).manifest ∧
      R.shape =
        (⟨[4], ⟨"i4", ["z"], 0, [2]⟩, ⟨[2], [some ⟨"a", 0, 10⟩, none]⟩⟩ :
          ManifestArray).shape ∧
      R.encoding =
        (⟨[4], ⟨"i4", ["z"], 0, [2]⟩, ⟨[2], [some ⟨"a", 0, 10⟩, none]⟩⟩ :
          ManifestArray).encoding :=
  C6_concat_singleton _ 0 (by decide) (by decide)

/-- C2: for valid ManifestArrays A and B with compatible encoding
(identical dtype, codec chain and fill value, identical chunk shape off
the axis), aligned along a valid axis (A covers whole chunks along it) and
agreeing on every other dimension's size, concatenation succeeds and the
result shape along the axis is the sum of the input extents while every
other axis keeps the common input size. -/
theorem C2_concat_shape (A B : ManifestArray) (a : Nat)
    (hvA : A.valid = true) (hvB : B.valid = true)
    (ha : a < A.shape.length)
    (henc : encodingMismatchField A.encoding B.encoding = none)
    (hcs : eqExcept A.encoding.chunk_shape B.encoding.chunk_shape a = true)
    (halign : A.shape.getD a 0 % A.encoding.chunk_shape.getD a 1 = 0)
    (hdim : eqExcept A.shape B.shape a = true) :
    ∃ R, concat [A, B] a = .ok R ∧
      R.shape.getD a 0 = A.shape.getD a 0 + B.shape.getD a 0 ∧
      (∀ i, i ≠ a → R.shape.getD i 0 = A.shape.getD i 0) ∧
      R.shape.length = A.shape.length := by
  have hfe : findEncodingMismatch A.encoding [B] 1 = none := by
    rw [findEncodingMismatch, henc]
    rfl
  have h1 : chunkShapesOk [A, B] a = true := by
    simp only [chunkShapesOk, List.all_cons, List.all_nil, List.dropLast,
      Bool.and_eq_true, beq_iff_eq]
    exact ⟨⟨eqExcept_refl _ _, hcs, trivial⟩, halign, trivial⟩
  have h2 : dimSizesOk [A, B] a = true := by
    simp only [dimSizesOk, List.all_cons, List.all_nil, Bool.and_eq_true]
    exact ⟨eqExcept_refl _ _, hdim, trivial⟩
  refine ⟨buildConcat A [B] a, ?_, ?_, ?_, ?_⟩
  · rw [concat_cons_none A [B] a hfe, if_pos h1, if_pos h2]
  · show (A.shape.set a ((List.map (fun arr => arr.shape.getD a 0) [A, B]).sum)).getD a 0 =
      A.shape.getD a 0 + B.shape.getD a 0
    rw [getD_set_self _ _ _ ha]
    simp
  · intro i hia
    show (A.shape.set a ((List.map (fun arr => arr.shape.getD a 0) [A, B]).sum)).getD i 0 =
      A.shape.getD i 0
    exact getD_set_ne _ _ _ _ (fun h => hia h.symm)
  · show (A.shape.set a ((List.map (fun arr => arr.shape.getD a 0) [A, B]).sum)).length =
      A.shape.length
    simp

theorem C2_concat_shape_witness :
    ∃ R, concat [⟨[4], ⟨"i4", ["z"], 0, [2]⟩, ⟨[2], [some ⟨"a", 0, 10⟩, some ⟨"a", 10, 10⟩]⟩⟩,
                 ⟨[4], ⟨"i4", ["z"], 0, [2]⟩, ⟨[2], [some ⟨"b", 0, 10⟩, some ⟨"b", 10, 10⟩]⟩⟩]
        0 = .ok R ∧
      R.shape.getD 0 0 = ([4] : List Nat).getD 0 0 + ([4] : List Nat).getD 0 0 ∧
      (∀ i, i ≠ 0 → R.shape.getD i 0 = ([4] : List Nat).getD i 0) ∧
      R.shape.length = ([4] : List Nat).length :=
  C2_concat_shape
    ⟨[4], ⟨"i4", ["z"], 0, [2]⟩, ⟨[2], [some ⟨"a", 0, 10⟩, some ⟨"a", 10, 10⟩]⟩⟩
    ⟨[4], ⟨"i4", ["z"], 0, [2]⟩, ⟨[2], [some ⟨"b", 0, 10⟩, some ⟨"b", 10, 10⟩]⟩⟩
    0 (by decide) (by decide) (by decide) rfl (by decide) (by decide) (by decide)

theorem concatCell_offset (a : Nat) :
    ∀ (ms : List ChunkManifest) (k : Nat) (hk : k < ms.length) (c : List Nat),
      a < c.length →
      c.getD a 0 < (ms.get ⟨k, hk⟩).grid_size.getD a 0 →
      concatCell a ms
        (c.set a (((ms.take k).map (fun m => m.grid_size.getD a 0)).sum + c.getD a 0)) =
      (ms.get ⟨k, hk⟩).cell c := by
  intro ms
  induction ms with
  | nil => intro k hk; exact absurd hk (by simp)
  | cons m rest ih =>
    intro k hk c hac hlt
    cases k with
    | zero =>
      have hlt0 : c.getD a 0 < m.grid_size.getD a 0 := hlt
      simp only [List.take_zero, List.map_nil, List.sum_nil, Nat.zero_add]
      rw [set_getD_self]
      rw [concatCell, if_pos hlt0]
      rfl
    | succ k =>
      have hk2 : k < rest.length := by simpa using hk
      simp only [List.take_succ_cons, List.map_cons, List.sum_cons]
      rw [concatCell]
      rw [if_neg ?hcond]
      case hcond =>
        rw [getD_set_self _ _ _ hac]
        omega
      rw [getD_set_self _ _ _ hac, List.set_set]
      have harith : m.grid_size.getD a 0 +
          ((rest.take k).map (fun x => x.grid_size.getD a 0)).sum + c.getD a 0 -
          m.grid_size.getD a 0 =
          ((rest.take k).map (fun x => x.grid_size.getD a 0)).sum + c.getD a 0 := by
        omega
      rw [harith]
      exact ih k hk2 c hac (by simpa using hlt)

theorem getD_default_irrel (l : List Nat) (i : Nat) (h : i < l.length) (d d₂ : Nat) :
    l.getD i d = l.getD i d₂ := by
  rw [List.getD_eq_getElem?_getD, List.getD_eq_getElem?_getD, List.getElem?_eq_getElem h]
  rfl

theorem sum_take_get_le (l : List Nat) (k : Nat) (hk : k < l.length) :
    (l.take k).sum + l.getD k 0 ≤ l.sum := by
  conv_rhs => rw [← List.take_append_drop k l]
  rw [List.sum_append]
  have hdrop : l.drop k = l.getD k 0 :: l.drop (k + 1) := by
    rw [List.getD_eq_getElem?_getD, List.getElem?_eq_getElem hk]
    exact (List.getElem_cons_drop l k hk).symm
  rw [hdrop, List.sum_cons]
  omega

theorem concat_readdress_aux (arrs : List ManifestArray) (a : Nat) (R : ManifestArray)
    (hok : concat arrs a = .ok R)
    (hv : ∀ arr ∈ arrs, arr.valid = true)
    (k : Nat) (hk : k < arrs.length) (c : List Nat)
    (hc : inBounds (arrs.get ⟨k, hk⟩).manifest.grid_size c = true)
    (ha : a < (arrs.get ⟨k, hk⟩).shape.length) :
    R.manifest.cell
      (c.set a (((arrs.take k).map (fun arr => arr.manifest.grid_size.getD a 0)).sum +
        c.getD a 0)) =
      (arrs.get ⟨k, hk⟩).manifest.cell c := by
  obtain ⟨arr0, rest, heq, henc, hcso, hdso, hR⟩ := concat_ok_inv hok
  subst heq
  subst hR
  set arrK := (arr0 :: rest).get ⟨k, hk⟩ with hKdef
  have hKmem : arrK ∈ arr0 :: rest := List.get_mem _ _ _
  have hv0 := hv arr0 (List.mem_cons_self _ _)
  have hvK := hv arrK hKmem
  obtain ⟨hlc0, hlg0, hwf0, hgeom0⟩ := valid_facts hv0
  obtain ⟨hlcK, hlgK, hwfK, hgeomK⟩ := valid_facts hvK
  have hcs : ∀ arr ∈ arr0 :: rest,
      eqExcept arr0.encoding.chunk_shape arr.encoding.chunk_shape a = true := by
    unfold chunkShapesOk at hcso
    simp only [Bool.and_eq_true, List.all_eq_true] at hcso
    exact hcso.1
  have hds : ∀ arr ∈ arr0 :: rest, eqExcept arr0.shape arr.shape a = true := by
    unfold dimSizesOk at hdso
    simp only [List.all_eq_true] at hdso
    exact hdso
  obtain ⟨hlen_sh, hsh⟩ := eqExcept_spec (hds arrK hKmem)
  obtain ⟨hlen_ch, hch⟩ := eqExcept_spec (hcs arrK hKmem)
  have ha0 : a < arr0.shape.length := by omega
  have hclen : c.length = arrK.manifest.grid_size.length := inBounds_length hc
  have hac : a < c.length := by omega
  have hgrid_agree : ∀ i, i < arr0.shape.length → i ≠ a →
      arrK.manifest.grid_size.getD i 0 = arr0.manifest.grid_size.getD i 0 := by
    intro i hi hia
    have h0 := (geomOk1_bounds (hgeom0 i hi)).2.2.1
    have hKg := (geomOk1_bounds (hgeomK i (by omega))).2.2.1
    rw [h0, hKg, ← hsh i (by omega) hia]
    have hch1 : arr0.encoding.chunk_shape.getD i 1 = arrK.encoding.chunk_shape.getD i 1 := by
      rw [getD_default_irrel _ _ (by omega) 1 0,
        getD_default_irrel arrK.encoding.chunk_shape _ (by omega) 1 0]
      exact hch i (by omega) hia
    rw [hch1]
  have hmapms : (List.map (fun m => m.grid_size.getD a 0)
        (arr0.manifest :: List.map ManifestArray.manifest rest)) =
      (arr0 :: rest).map (fun arr => arr.manifest.grid_size.getD a 0) := by
    simp [List.map_map, Function.comp]
  have hLk : ((arr0 :: rest).map (fun arr => arr.manifest.grid_size.getD a 0)).getD k 0 =
      arrK.manifest.grid_size.getD a 0 := by
    rw [List.getD_eq_getElem?_getD, List.getElem?_map, List.getElem?_eq_getElem hk]
    rfl
  have hca : c.getD a 0 < arrK.manifest.grid_size.getD a 0 :=
    inBounds_getD hc a (by omega)
  have hsum_le :
      ((((arr0 :: rest).map (fun arr => arr.manifest.grid_size.getD a 0)).take k).sum +
        ((arr0 :: rest).map (fun arr => arr.manifest.grid_size.getD a 0)).getD k 0 ≤
        ((arr0 :: rest).map (fun arr => arr.manifest.grid_size.getD a 0)).sum) :=
    sum_take_get_le _ k (by simpa using hk)
  have hoff2 : (((arr0 :: rest).take k).map
        (fun arr => arr.manifest.grid_size.getD a 0)).sum =
      (((arr0 :: rest).map (fun arr => arr.manifest.grid_size.getD a 0)).take k).sum := by
    rw [List.map_take]
  show ChunkManifest.cell
      (concatManifest ((arr0 :: rest).map ManifestArray.manifest) a)
      (c.set a ((((arr0 :: rest).take k).map
        (fun arr => arr.manifest.grid_size.getD a 0)).sum + c.getD a 0)) =
    arrK.manifest.cell c
  rw [List.map_cons]
  unfold concatManifest
  dsimp only
  rw [hmapms]
  have hbound : inBounds
      (arr0.manifest.grid_size.set a
        (((arr0 :: rest).map (fun arr => arr.manifest.grid_size.getD a 0)).sum))
      (c.set a ((((arr0 :: rest).take k).map
        (fun arr => arr.manifest.grid_size.getD a 0)).sum + c.getD a 0)) = true := by
    apply inBounds_of_getD
    · simp only [List.length_set]
      omega
    · intro i hi
      simp only [List.length_set] at hi
      by_cases hia : i = a
      · subst hia
        rw [getD_set_self _ _ _ hac, getD_set_self _ _ _ (by omega)]
        omega
      · rw [getD_set_ne _ _ _ _ (fun h => hia h.symm),
          getD_set_ne _ _ _ _ (fun h => hia h.symm)]
        have := inBounds_getD hc i (by omega)
        rw [hgrid_agree i (by omega) hia] at this
        exact this
  rw [cell_build _ _ _ hbound]
  rw [← List.map_cons ManifestArray.manifest arr0 rest]
  have hkm : k < ((arr0 :: rest).map ManifestArray.manifest).length := by
    simpa using hk
  have hmsget : ((arr0 :: rest).map ManifestArray.manifest).get ⟨k, hkm⟩ =
      arrK.manifest := by
    rw [hKdef, List.get_eq_getElem, List.get_eq_getElem, List.getElem_map]
  have happly := concatCell_offset a ((arr0 :: rest).map ManifestArray.manifest) k hkm c
    hac (by rw [hmsget]; exact hca)
  rw [hmsget] at happly
  have hoff3 : ((((arr0 :: rest).map ManifestArray.manifest).take k).map
        (fun m => m.grid_size.getD a 0)).sum =
      (((arr0 :: rest).take k).map
        (fun arr => arr.manifest.grid_size.getD a 0)).sum := by
    rw [← List.map_take, List.map_map]
    simp [Function.comp_def]
  rw [hoff3] at happly
  exact happly

/-- Concrete input for the C3 re-addressing scenario: shape (4,), chunk
shape (2,), full grid of two entries from file "a". -/
def arrA3 : ManifestArray :=
  ⟨[4], ⟨"i4", ["z"], 0, [2]⟩, ⟨[2], [some ⟨"a", 0, 10⟩, some ⟨"a", 10, 10⟩]⟩⟩

/-- Concrete input for the C3 re-addressing scenario: shape (4,), chunk
shape (2,), full grid of two entries from file "b". -/
def arrB3 : ManifestArray :=
  ⟨[4], ⟨"i4", ["z"], 0, [2]⟩, ⟨[2], [some ⟨"b", 0, 10⟩, some ⟨"b", 10, 10⟩]⟩⟩

/-- C3: the concatenated manifest is a pure re-addressing of the inputs'
entries, in the caller-supplied order: the cell of input k at chunk
coordinate c appears in the result at the coordinate whose axis-`a`
component is shifted by the sum of the grid extents along `a` of inputs
0..k-1 and whose other components are unchanged; in particular, two
arrays of shape (4,), chunk shape (2,) with full grids [E00,E01] and
[E10,E11] concatenated on axis 0 yield shape (8,) with row-major grid
[E00,E01,E10,E11] in that exact order. -/
theorem C3_concat_readdress :
    (∀ (arrs : List ManifestArray) (a : Nat) (R : ManifestArray),
      concat arrs a = .ok R →
      (∀ arr ∈ arrs, arr.valid = true) →
      ∀ (k : Nat) (hk : k < arrs.length) (c : List Nat),
        inBounds (arrs.get ⟨k, hk⟩).manifest.grid_size c = true →
        a < (arrs.get ⟨k, hk⟩).shape.length →
        R.manifest.cell
          (c.set a (((arrs.take k).map (fun arr => arr.manifest.grid_size.getD a 0)).sum +
            c.getD a 0)) =
          (arrs.get ⟨k, hk⟩).manifest.cell c) ∧
    (∃ R, concat [arrA3, arrB3] 0 = .ok R ∧ R.shape = [8] ∧
      R.manifest.grid_size = [4] ∧
      R.manifest.cells = [some ⟨"a", 0, 10⟩, some ⟨"a", 10, 10⟩,
        some ⟨"b", 0, 10⟩, some ⟨"b", 10, 10⟩]) := by
  constructor
  · intro arrs a R hok hv k hk c hc ha
    exact concat_readdress_aux arrs a R hok hv k hk c hc ha
  · exact ⟨buildConcat arrA3 [arrB3] 0, rfl, by decide, by decide, by decide⟩

theorem C3_concat_readdress_witness :
    (buildConcat arrA3 [arrB3] 0).manifest.cell
      (([0] : List Nat).set 0
        ((([arrA3, arrB3].take 1).map (fun arr => arr.manifest.grid_size.getD 0 0)).sum +
          ([0] : List Nat).getD 0 0)) =
      ([arrA3, arrB3].get ⟨1, by decide⟩).manifest.cell [0] :=
  C3_concat_readdress.1 [arrA3, arrB3] 0 (buildConcat arrA3 [arrB3] 0) rfl (by decide) 1
    (by decide) [0] (by decide) (by decide)

/-- Ceiling division used for chunk-grid extents. -/
def ceilDiv (s c : Nat) : Nat := (s + c - 1) / c

/-- Modelled from the spec: per-axis admissibility of a slice boundary
(section 4.2): the selected range lies inside the array and both
boundaries are chunk-aligned; the stop may also be the array end, whose
final chunk may be a remainder chunk. -/
def sliceCheck1 (b : Nat × Nat) (s c : Nat) : Bool :=
  decide (b.1 ≤ b.2) && decide (b.2 ≤ s) && (b.1 % c == 0) &&
    ((b.2 % c == 0) || (b.2 == s))

/-- Modelled from the spec: whole-chunk slicing (section 4.2): selecting a
contiguous, chunk-aligned element range along each axis yields a new
ManifestArray with the corresponding sub-manifest and adjusted shape and
the encoding kept unchanged; a boundary not aligned to the chunk shape is
rejected with AlignmentError, since the system never re-chunks or
re-encodes. -/
def sliceArray (arr : ManifestArray) (bounds : List (Nat × Nat)) : Except VError ManifestArray :=
  if (bounds.length == arr.shape.length) &&
     (List.range bounds.length).all (fun i =>
       sliceCheck1 (bounds.getD i (0, 0)) (arr.shape.getD i 0)
         (arr.encoding.chunk_shape.getD i 1))
  then
    let newShape := (List.range bounds.length).map
      (fun i => (bounds.getD i (0, 0)).2 - (bounds.getD i (0, 0)).1)
    let startChunk := (List.range bounds.length).map
      (fun i => (bounds.getD i (0, 0)).1 / arr.encoding.chunk_shape.getD i 1)
    let newGrid := (List.range bounds.length).map
      (fun i => ceilDiv (newShape.getD i 0) (arr.encoding.chunk_shape.getD i 1))
    .ok ⟨newShape, arr.encoding,
      ⟨newGrid, (allCoords newGrid).map
        (fun c => arr.manifest.cell (List.zipWith (· + ·) startChunk c))⟩⟩
  else .error .AlignmentError

/-- C8: slicing at a boundary not aligned to the chunk shape raises
AlignmentError, while a contiguous whole-chunk selection succeeds and
yields a new ManifestArray with the corresponding sub-manifest (each cell
read from the parent at the start-chunk offset) and adjusted shape, with
the encoding unchanged — the operation never re-chunks or re-encodes. -/
theorem C8_slice_alignment (arr : ManifestArray) (bounds : List (Nat × Nat)) :
    ((∃ i, i < bounds.length ∧
        sliceCheck1 (bounds.getD i (0, 0)) (arr.shape.getD i 0)
          (arr.encoding.chunk_shape.getD i 1) = false) →
      sliceArray arr bounds = .error .AlignmentError) ∧
    (bounds.length = arr.shape.length →
      (∀ i, i < bounds.length →
        sliceCheck1 (bounds.getD i (0, 0)) (arr.shape.getD i 0)
          (arr.encoding.chunk_shape.getD i 1) = true) →
      ∃ R, sliceArray arr bounds = .ok R ∧
        R.encoding = arr.encoding ∧
        R.shape = (List.range bounds.length).map
          (fun i => (bounds.getD i (0, 0)).2 - (bounds.getD i (0, 0)).1) ∧
        (∀ c, inBounds R.manifest.grid_size c = true →
          R.manifest.cell c = arr.manifest.cell
            (List.zipWith (· + ·)
              ((List.range bounds.length).map
                (fun i => (bounds.getD i (0, 0)).1 /
                  arr.encoding.chunk_shape.getD i 1)) c))) := by
  constructor
  · rintro ⟨i, hi, hfalse⟩
    unfold sliceArray
    split
    case isTrue hcond =>
      exfalso
      simp only [Bool.and_eq_true, List.all_eq_true, List.mem_range, beq_iff_eq] at hcond
      have := hcond.2 i hi
      rw [hfalse] at this
      exact absurd this (by simp)
    case isFalse => rfl
  · intro hlen hall
    have hcond : ((bounds.length == arr.shape.length) &&
        (List.range bounds.length).all (fun i =>
          sliceCheck1 (bounds.getD i (0, 0)) (arr.shape.getD i 0)
            (arr.encoding.chunk_shape.getD i 1))) = true := by
      simp only [Bool.and_eq_true, List.all_eq_true, List.mem_range, beq_iff_eq]
      exact ⟨hlen, hall⟩
    unfold sliceArray
    rw [if_pos hcond]
    dsimp only
    refine ⟨_, rfl, rfl, rfl, ?_⟩
    intro c hc
    exact cell_build _ _ c hc

/-- Concrete input for the C8 slicing scenario. -/
def arrS8 : ManifestArray :=
  ⟨[4], ⟨"i4", ["z"], 0, [2]⟩, ⟨[2], [some ⟨"a", 0, 10⟩, some ⟨"a", 10, 10⟩]⟩⟩

theorem C8_slice_alignment_witness :
    ∃ R, sliceArray arrS8 [(2, 4)] = .ok R ∧
      R.encoding = arrS8.encoding ∧
      R.shape = (List.range ([(2, 4)] : List (Nat × Nat)).length).map
        (fun i => (([(2, 4)] : List (Nat × Nat)).getD i (0, 0)).2 -
          (([(2, 4)] : List (Nat × Nat)).getD i (0, 0)).1) ∧
      (∀ c, inBounds R.manifest.grid_size c = true →
        R.manifest.cell c = arrS8.manifest.cell
          (List.zipWith (· + ·)
            ((List.range ([(2, 4)] : List (Nat × Nat)).length).map
              (fun i => (([(2, 4)] : List (Nat × Nat)).getD i (0, 0)).1 /
                arrS8.encoding.chunk_shape.getD i 1)) c)) :=
  (C8_slice_alignment arrS8 [(2, 4)]).2 (by decide) (by decide)

theorem concatManifest_pair (m₁ m₂ : ChunkManifest) (a : Nat) :
    concatManifest [m₁, m₂] a =
      ⟨m₁.grid_size.set a (m₁.grid_size.getD a 0 + (m₂.grid_size.getD a 0 + 0)),
       (allCoords (m₁.grid_size.set a
         (m₁.grid_size.getD a 0 + (m₂.grid_size.getD a 0 + 0)))).map
         (concatCell a [m₁, m₂])⟩ := by
  unfold concatManifest
  dsimp only
  rfl

theorem concatCell_assoc (a : Nat) (m₁ m₂ m₃ : ChunkManifest) (c : List Nat)
    (hac : a < c.length)
    (hl1 : m₁.grid_size.length = c.length)
    (hl2 : m₂.grid_size.length = c.length)
    (hl3 : m₃.grid_size.length = c.length)
    (hoff2 : ∀ i, i < c.length → i ≠ a → m₂.grid_size.getD i 0 = m₁.grid_size.getD i 0)
    (hoff3 : ∀ i, i < c.length → i ≠ a → m₃.grid_size.getD i 0 = m₁.grid_size.getD i 0)
    (hcoff : ∀ i, i < c.length → i ≠ a → c.getD i 0 < m₁.grid_size.getD i 0)
    (hca : c.getD a 0 <
      m₁.grid_size.getD a 0 + m₂.grid_size.getD a 0 + m₃.grid_size.getD a 0) :
    concatCell a [concatManifest [m₁, m₂] a, m₃] c =
      concatCell a [m₁, concatManifest [m₂, m₃] a] c := by
  have hpair12 := concatManifest_pair m₁ m₂ a
  have hpair23 := concatManifest_pair m₂ m₃ a
  have hM12a : (concatManifest [m₁, m₂] a).grid_size.getD a 0 =
      m₁.grid_size.getD a 0 + (m₂.grid_size.getD a 0 + 0) := by
    rw [hpair12]
    exact getD_set_self _ _ _ (by omega)
  have hM23a : (concatManifest [m₂, m₃] a).grid_size.getD a 0 =
      m₂.grid_size.getD a 0 + (m₃.grid_size.getD a 0 + 0) := by
    rw [hpair23]
    exact getD_set_self _ _ _ (by omega)
  have hgset : ∀ X : Nat, (c.set a X).getD a 0 = X := fun X => getD_set_self c a X hac
  have hcell12 : ∀ d, inBounds (concatManifest [m₁, m₂] a).grid_size d = true →
      (concatManifest [m₁, m₂] a).cell d = concatCell a [m₁, m₂] d := by
    intro d hd
    rw [hpair12] at hd ⊢
    exact cell_build _ _ d hd
  have hcell23 : ∀ d, inBounds (concatManifest [m₂, m₃] a).grid_size d = true →
      (concatManifest [m₂, m₃] a).cell d = concatCell a [m₂, m₃] d := by
    intro d hd
    rw [hpair23] at hd ⊢
    exact cell_build _ _ d hd
  have hin12 : c.getD a 0 < m₁.grid_size.getD a 0 + (m₂.grid_size.getD a 0 + 0) →
      inBounds (concatManifest [m₁, m₂] a).grid_size c = true := by
    intro h
    rw [hpair12]
    apply inBounds_of_getD
    · simp only [List.length_set]
      omega
    · intro i hi
      simp only [List.length_set] at hi
      by_cases hia : i = a
      · subst hia
        rw [getD_set_self _ _ _ (by omega)]
        exact h
      · rw [getD_set_ne _ _ _ _ (fun hh => hia hh.symm)]
        exact hcoff i (by omega) hia
  have hin23 : ∀ v, v < m₂.grid_size.getD a 0 + (m₃.grid_size.getD a 0 + 0) →
      inBounds (concatManifest [m₂, m₃] a).grid_size (c.set a v) = true := by
    intro v hv
    rw [hpair23]
    apply inBounds_of_getD
    · simp only [List.length_set]
      omega
    · intro i hi
      simp only [List.length_set] at hi
      by_cases hia : i = a
      · subst hia
        rw [hgset, getD_set_self _ _ _ (by omega)]
        exact hv
      · rw [getD_set_ne _ _ _ _ (fun hh => hia hh.symm),
          getD_set_ne _ _ _ _ (fun hh => hia hh.symm)]
        rw [hoff2 i (by omega) hia]
        exact hcoff i (by omega) hia
  by_cases h1 : c.getD a 0 < m₁.grid_size.getD a 0
  · -- region of the first input
    rw [concatCell, if_pos (by omega : c.getD a 0 <
        (concatManifest [m₁, m₂] a).grid_size.getD a 0)]
    rw [hcell12 c (hin12 (by omega))]
    rw [concatCell, if_pos h1]
    rw [concatCell, if_pos h1]
  · by_cases h2 : c.getD a 0 < m₁.grid_size.getD a 0 + m₂.grid_size.getD a 0
    · -- region of the second input
      rw [concatCell, if_pos (by omega : c.getD a 0 <
          (concatManifest [m₁, m₂] a).grid_size.getD a 0)]
      rw [hcell12 c (hin12 (by omega))]
      rw [concatCell, if_neg h1]
      rw [concatCell, if_pos (by rw [hgset]; omega)]
      rw [concatCell, if_neg h1]
      rw [concatCell, if_pos (by rw [hgset, hM23a]; omega)]
      rw [hcell23 _ (hin23 _ (by omega))]
      rw [concatCell, if_pos (by rw [hgset]; omega)]
    · -- region of the third input
      rw [concatCell, if_neg (by rw [hM12a]; omega)]
      rw [concatCell, if_pos (by rw [hgset, hM12a]; omega)]
      rw [concatCell, if_neg h1]
      rw [concatCell, if_pos (by rw [hgset, hM23a]; omega)]
      rw [hcell23 _ (hin23 _ (by omega))]
      rw [concatCell, if_neg (by rw [hgset]; omega)]
      rw [concatCell, if_pos (by rw [hgset, List.set_set, hgset]; omega)]
      rw [hgset, List.set_set, hM12a]
      have harith : c.getD a 0 -
          (m₁.grid_size.getD a 0 + (m₂.grid_size.getD a 0 + 0)) =
          c.getD a 0 - m₁.grid_size.getD a 0 - m₂.grid_size.getD a 0 := by
        omega
      rw [harith]

theorem chunkManifest_eq (x y : ChunkManifest) (h1 : x.grid_size = y.grid_size)
    (h2 : x.cells = y.cells) : x = y := by
  cases x
  cases y
  cases h1
  cases h2
  rfl

theorem manifestArray_eq (x y : ManifestArray) (h1 : x.shape = y.shape)
    (h2 : x.encoding = y.encoding) (h3 : x.manifest = y.manifest) : x = y := by
  cases x
  cases y
  cases h1
  cases h2
  cases h3
  rfl

theorem concatManifest_assoc (a : Nat) (m₁ m₂ m₃ : ChunkManifest)
    (ha : a < m₁.grid_size.length)
    (hlen2 : m₂.grid_size.length = m₁.grid_size.length)
    (hlen3 : m₃.grid_size.length = m₁.grid_size.length)
    (hoff2 : ∀ i, i < m₁.grid_size.length → i ≠ a →
      m₂.grid_size.getD i 0 = m₁.grid_size.getD i 0)
    (hoff3 : ∀ i, i < m₁.grid_size.length → i ≠ a →
      m₃.grid_size.getD i 0 = m₁.grid_size.getD i 0) :
    concatManifest [concatManifest [m₁, m₂] a, m₃] a =
      concatManifest [m₁, concatManifest [m₂, m₃] a] a := by
  have hg1set : ∀ X : Nat, (m₁.grid_size.set a X).getD a 0 = X :=
    fun X => getD_set_self _ _ _ ha
  have hg2set : ∀ X : Nat, (m₂.grid_size.set a X).getD a 0 = X :=
    fun X => getD_set_self _ _ _ (by omega)
  have hgrid12 : (concatManifest [m₁, m₂] a).grid_size =
      m₁.grid_size.set a (m₁.grid_size.getD a 0 + (m₂.grid_size.getD a 0 + 0)) := by
    rw [concatManifest_pair m₁ m₂ a]
  have hgrid23 : (concatManifest [m₂, m₃] a).grid_size =
      m₂.grid_size.set a (m₂.grid_size.getD a 0 + (m₃.grid_size.getD a 0 + 0)) := by
    rw [concatManifest_pair m₂ m₃ a]
  have hgridL : (concatManifest [concatManifest [m₁, m₂] a, m₃] a).grid_size =
      m₁.grid_size.set a ((m₁.grid_size.getD a 0 + (m₂.grid_size.getD a 0 + 0)) +
        (m₃.grid_size.getD a 0 + 0)) := by
    rw [concatManifest_pair (concatManifest [m₁, m₂] a) m₃ a]
    dsimp only
    rw [hgrid12, hg1set, List.set_set]
  have hcellsL : (concatManifest [concatManifest [m₁, m₂] a, m₃] a).cells =
      (allCoords (m₁.grid_size.set a
        ((m₁.grid_size.getD a 0 + (m₂.grid_size.getD a 0 + 0)) +
          (m₃.grid_size.getD a 0 + 0)))).map
        (concatCell a [concatManifest [m₁, m₂] a, m₃]) := by
    rw [concatManifest_pair (concatManifest [m₁, m₂] a) m₃ a]
    dsimp only
    rw [hgrid12, hg1set, List.set_set]
  have hgridR : (concatManifest [m₁, concatManifest [m₂, m₃] a] a).grid_size =
      m₁.grid_size.set a (m₁.grid_size.getD a 0 +
        ((m₂.grid_size.getD a 0 + (m₃.grid_size.getD a 0 + 0)) + 0)) := by
    rw [concatManifest_pair m₁ (concatManifest [m₂, m₃] a) a]
    dsimp only
    rw [hgrid23, hg2set]
  have hcellsR : (concatManifest [m₁, concatManifest [m₂, m₃] a] a).cells =
      (allCoords (m₁.grid_size.set a (m₁.grid_size.getD a 0 +
        ((m₂.grid_size.getD a 0 + (m₃.grid_size.getD a 0 + 0)) + 0)))).map
        (concatCell a [m₁, concatManifest [m₂, m₃] a]) := by
    rw [concatManifest_pair m₁ (concatManifest [m₂, m₃] a) a]
    dsimp only
    rw [hgrid23, hg2set]
  have hT : (m₁.grid_size.getD a 0 + (m₂.grid_size.getD a 0 + 0)) +
      (m₃.grid_size.getD a 0 + 0) =
      m₁.grid_size.getD a 0 +
        ((m₂.grid_size.getD a 0 + (m₃.grid_size.getD a 0 + 0)) + 0) := by
    omega
  have hmapeq : (allCoords (m₁.grid_size.set a
      ((m₁.grid_size.getD a 0 + (m₂.grid_size.getD a 0 + 0)) +
        (m₃.grid_size.getD a 0 + 0)))).map
      (concatCell a [concatManifest [m₁, m₂] a, m₃]) =
      (allCoords (m₁.grid_size.set a
        ((m₁.grid_size.getD a 0 + (m₂.grid_size.getD a 0 + 0)) +
          (m₃.grid_size.getD a 0 + 0)))).map
      (concatCell a [m₁, concatManifest [m₂, m₃] a]) := by
    apply List.map_congr_left
    intro c hc
    have hib := (mem_allCoords _ c).mp hc
    have hclen : c.length = m₁.grid_size.length := by
      have := inBounds_length hib
      simpa using this
    apply concatCell_assoc
    · omega
    · omega
    · omega
    · omega
    · intro i hi hia
      exact hoff2 i (by omega) hia
    · intro i hi hia
      exact hoff3 i (by omega) hia
    · intro i hi hia
      have := inBounds_getD hib i (by simp only [List.length_set]; omega)
      rw [getD_set_ne _ _ _ _ (fun hh => hia hh.symm)] at this
      exact this
    · have := inBounds_getD hib a (by simp only [List.length_set]; omega)
      rw [hg1set] at this
      omega
  apply chunkManifest_eq
  · rw [hgridL, hgridR, hT]
  · rw [hcellsL, hcellsR, ← hT, hmapeq]

theorem grid_agree_off_axis {A B : ManifestArray} {a : Nat}
    (hvA : A.valid = true) (hvB : B.valid = true)
    (hcs : eqExcept A.encoding.chunk_shape B.encoding.chunk_shape a = true)
    (hds : eqExcept A.shape B.shape a = true) :
    ∀ i, i < A.shape.length → i ≠ a →
      B.manifest.grid_size.getD i 0 = A.manifest.grid_size.getD i 0 := by
  intro i hi hia
  obtain ⟨hlcA, hlgA, _, hgeomA⟩ := valid_facts hvA
  obtain ⟨hlcB, hlgB, _, hgeomB⟩ := valid_facts hvB
  obtain ⟨hlensh, hsh⟩ := eqExcept_spec hds
  obtain ⟨hlench, hch⟩ := eqExcept_spec hcs
  have h0 := (geomOk1_bounds (hgeomA i hi)).2.2.1
  have hB := (geomOk1_bounds (hgeomB i (by omega))).2.2.1
  rw [h0, hB, ← hsh i (by omega) hia]
  have hch1 : A.encoding.chunk_shape.getD i 1 = B.encoding.chunk_shape.getD i 1 := by
    rw [getD_default_irrel _ _ (by omega) 1 0,
      getD_default_irrel B.encoding.chunk_shape _ (by omega) 1 0]
    exact hch i (by omega) hia
  rw [hch1]

/-- C7: concatenation is associative for pairwise-compatible inputs:
composing concat over [A,B] then [AB,C] yields the same ManifestArray as
composing over [B,C] then [A,BC]. -/
theorem C7_concat_assoc (A B C : ManifestArray) (a : Nat)
    (hvA : A.valid = true) (hvB : B.valid = true) (hvC : C.valid = true)
    (ha : a < A.shape.length)
    (hencB : A.encoding = B.encoding) (hencC : A.encoding = C.encoding)
    (hdimB : eqExcept A.shape B.shape a = true)
    (hdimC : eqExcept A.shape C.shape a = true)
    (halignA : A.shape.getD a 0 % A.encoding.chunk_shape.getD a 1 = 0)
    (halignB : B.shape.getD a 0 % B.encoding.chunk_shape.getD a 1 = 0) :
    (concat [A, B] a).bind (fun AB => concat [AB, C] a) =
      (concat [B, C] a).bind (fun BC => concat [A, BC] a) := by
  obtain ⟨hlcA, hlgA, hwfA, hgeomA⟩ := valid_facts hvA
  obtain ⟨hlcB, hlgB, hwfB, hgeomB⟩ := valid_facts hvB
  obtain ⟨hlcC, hlgC, hwfC, hgeomC⟩ := valid_facts hvC
  obtain ⟨hlshB, hshB⟩ := eqExcept_spec hdimB
  obtain ⟨hlshC, hshC⟩ := eqExcept_spec hdimC
  have hcsB : eqExcept A.encoding.chunk_shape B.encoding.chunk_shape a = true := by
    rw [hencB]
    exact eqExcept_refl _ _
  have hcsC : eqExcept A.encoding.chunk_shape C.encoding.chunk_shape a = true := by
    rw [hencC]
    exact eqExcept_refl _ _
  have hgridB := grid_agree_off_axis hvA hvB hcsB hdimB
  have hgridC := grid_agree_off_axis hvA hvC hcsC hdimC
  have hmf : ∀ e : Encoding, encodingMismatchField e e = none := by
    intro e
    simp [encodingMismatchField]
  have hfeB : findEncodingMismatch A.encoding [B] 1 = none := by
    rw [findEncodingMismatch, hencB, hmf]
    rfl
  have hfeC : findEncodingMismatch A.encoding [C] 1 = none := by
    rw [findEncodingMismatch, hencC, hmf]
    rfl
  have hfeBC : findEncodingMismatch B.encoding [C] 1 = none := by
    rw [findEncodingMismatch, ← hencB, hencC, hmf]
    rfl
  have hchunkAB : chunkShapesOk [A, B] a = true := by
    simp only [chunkShapesOk, List.all_cons, List.all_nil, List.dropLast,
      Bool.and_eq_true, beq_iff_eq]
    exact ⟨⟨eqExcept_refl _ _, hcsB, trivial⟩, halignA, trivial⟩
  have hdimsAB : dimSizesOk [A, B] a = true := by
    simp only [dimSizesOk, List.all_cons, List.all_nil, Bool.and_eq_true]
    exact ⟨eqExcept_refl _ _, hdimB, trivial⟩
  have hAB : concat [A, B] a = .ok (buildConcat A [B] a) := by
    rw [concat_cons_none A [B] a hfeB, if_pos hchunkAB, if_pos hdimsAB]
  have hcsBC : eqExcept B.encoding.chunk_shape C.encoding.chunk_shape a = true := by
    rw [← hencB, hencC]
    exact eqExcept_refl _ _
  have hdimBC : eqExcept B.shape C.shape a = true := by
    apply eqExcept_intro (by omega)
    intro i hi hia
    rw [← hshB i (by omega) hia]
    exact hshC i (by omega) hia
  have hchunkBC : chunkShapesOk [B, C] a = true := by
    simp only [chunkShapesOk, List.all_cons, List.all_nil, List.dropLast,
      Bool.and_eq_true, beq_iff_eq]
    exact ⟨⟨eqExcept_refl _ _, hcsBC, trivial⟩, halignB, trivial⟩
  have hdimsBC : dimSizesOk [B, C] a = true := by
    simp only [dimSizesOk, List.all_cons, List.all_nil, Bool.and_eq_true]
    exact ⟨eqExcept_refl _ _, hdimBC, trivial⟩
  have hBC : concat [B, C] a = .ok (buildConcat B [C] a) := by
    rw [concat_cons_none B [C] a hfeBC, if_pos hchunkBC, if_pos hdimsBC]
  have hABshape : (buildConcat A [B] a).shape =
      A.shape.set a (A.shape.getD a 0 + (B.shape.getD a 0 + 0)) := rfl
  have hBCshape : (buildConcat B [C] a).shape =
      B.shape.set a (B.shape.getD a 0 + (C.shape.getD a 0 + 0)) := rfl
  have hgsetA : ∀ X : Nat, (A.shape.set a X).getD a 0 = X :=
    fun X => getD_set_self _ _ _ ha
  have hgsetB : ∀ X : Nat, (B.shape.set a X).getD a 0 = X :=
    fun X => getD_set_self _ _ _ (by omega)
  -- the outer concatenation on the left
  have hfeABC : findEncodingMismatch (buildConcat A [B] a).encoding [C] 1 = none := hfeC
  have hchunkABC : chunkShapesOk [buildConcat A [B] a, C] a = true := by
    simp only [chunkShapesOk, List.all_cons, List.all_nil, List.dropLast,
      Bool.and_eq_true, beq_iff_eq]
    refine ⟨⟨eqExcept_refl _ _, hcsC, trivial⟩, ?_, trivial⟩
    show (buildConcat A [B] a).shape.getD a 0 %
      A.encoding.chunk_shape.getD a 1 = 0
    rw [hABshape, hgsetA]
    have h2 : B.shape.getD a 0 % A.encoding.chunk_shape.getD a 1 = 0 := by
      rw [hencB]
      exact halignB
    rw [Nat.add_zero, Nat.add_mod, halignA, h2]
    simp
  have hdimsABC : dimSizesOk [buildConcat A [B] a, C] a = true := by
    simp only [dimSizesOk, List.all_cons, List.all_nil, Bool.and_eq_true]
    refine ⟨eqExcept_refl _ _, ?_, trivial⟩
    apply eqExcept_intro
    · rw [hABshape]
      simp only [List.length_set]
      omega
    · intro i hi hia
      rw [hABshape] at hi ⊢
      simp only [List.length_set] at hi
      rw [getD_set_ne _ _ _ _ (fun hh => hia hh.symm)]
      exact hshC i (by omega) hia
  have hLeft : concat [buildConcat A [B] a, C] a =
      .ok (buildConcat (buildConcat A [B] a) [C] a) := by
    rw [concat_cons_none _ [C] a hfeABC, if_pos hchunkABC, if_pos hdimsABC]
  -- the outer concatenation on the right
  have hfeRBC : findEncodingMismatch A.encoding [buildConcat B [C] a] 1 = none := by
    rw [findEncodingMismatch]
    have : encodingMismatchField A.encoding (buildConcat B [C] a).encoding =
        encodingMismatchField A.encoding B.encoding := rfl
    rw [this, hencB, hmf]
    rfl
  have hcsRBC : eqExcept A.encoding.chunk_shape
      (buildConcat B [C] a).encoding.chunk_shape a = true := hcsB
  have hchunkRBC : chunkShapesOk [A, buildConcat B [C] a] a = true := by
    simp only [chunkShapesOk, List.all_cons, List.all_nil, List.dropLast,
      Bool.and_eq_true, beq_iff_eq]
    exact ⟨⟨eqExcept_refl _ _, hcsRBC, trivial⟩, halignA, trivial⟩
  have hdimsRBC : dimSizesOk [A, buildConcat B [C] a] a = true := by
    simp only [dimSizesOk, List.all_cons, List.all_nil, Bool.and_eq_true]
    refine ⟨eqExcept_refl _ _, ?_, trivial⟩
    apply eqExcept_intro
    · rw [hBCshape]
      simp only [List.length_set]
      omega
    · intro i hi hia
      rw [hBCshape]
      rw [getD_set_ne _ _ _ _ (fun hh => hia hh.symm)]
      exact hshB i (by omega) hia
  have hRight : concat [A, buildConcat B [C] a] a =
      .ok (buildConcat A [buildConcat B [C] a] a) := by
    rw [concat_cons_none _ [buildConcat B [C] a] a hfeRBC, if_pos hchunkRBC,
      if_pos hdimsRBC]
  rw [hAB, hBC]
  show concat [buildConcat A [B] a, C] a = concat [A, buildConcat B [C] a] a
  rw [hLeft, hRight]
  -- the two built results coincide
  have hbuild : buildConcat (buildConcat A [B] a) [C] a =
      buildConcat A [buildConcat B [C] a] a := by
    apply manifestArray_eq
    · show ((buildConcat A [B] a).shape.set a
        ((buildConcat A [B] a).shape.getD a 0 + (C.shape.getD a 0 + 0))) =
        (A.shape.set a (A.shape.getD a 0 + ((buildConcat B [C] a).shape.getD a 0 + 0)))
      rw [hABshape, hBCshape, hgsetA, hgsetB, List.set_set]
      have hv : A.shape.getD a 0 + (B.shape.getD a 0 + 0) + (C.shape.getD a 0 + 0) =
          A.shape.getD a 0 + (B.shape.getD a 0 + (C.shape.getD a 0 + 0) + 0) := by
        omega
      rw [hv]
    · rfl
    · show concatManifest [concatManifest [A.manifest, B.manifest] a, C.manifest] a =
        concatManifest [A.manifest, concatManifest [B.manifest, C.manifest] a] a
      apply concatManifest_assoc
      · omega
      · omega
      · omega
      · intro i hi hia
        exact hgridB i (by omega) hia
      · intro i hi hia
        exact hgridC i (by omega) hia
  rw [hbuild]

/-- Concrete input A for the C7 associativity scenario. -/
def arrA7 : ManifestArray :=
  ⟨[4], ⟨"i4", ["z"], 0, [2]⟩, ⟨[2], [some ⟨"a", 0, 10⟩, some ⟨"a", 10, 10⟩]⟩⟩

/-- Concrete input B for the C7 associativity scenario. -/
def arrB7 : ManifestArray :=
  ⟨[4], ⟨"i4", ["z"], 0, [2]⟩, ⟨[2], [some ⟨"b", 0, 10⟩, some ⟨"b", 10, 10⟩]⟩⟩

/-- Concrete input C for the C7 associativity scenario. -/
def arrC7 : ManifestArray :=
  ⟨[4], ⟨"i4", ["z"], 0, [2]⟩, ⟨[2], [some ⟨"c", 0, 10⟩, none]⟩⟩

theorem C7_concat_assoc_witness :
    (concat [arrA7, arrB7] 0).bind (fun AB => concat [AB, arrC7] 0) =
      (concat [arrB7, arrC7] 0).bind (fun BC => concat [arrA7, BC] 0) :=
  C7_concat_assoc arrA7 arrB7 arrC7 0 (by decide) (by decide) (by decide) (by decide)
    rfl rfl (by decide) (by decide) (by decide) (by decide)

/-- Decimal rendering of a natural number with structural fuel (the digits
are accumulated from the least significant side). -/
def natStrGo : Nat → Nat → List Char → List Char
  | 0, _, acc => acc
  | fuel + 1, n, acc =>
    if n < 10 then Nat.digitChar n :: acc
    else natStrGo fuel (n / 10) (Nat.digitChar (n % 10) :: acc)

/-- Decimal rendering of a natural number as a character sequence. -/
def natStr (n : Nat) : List Char := natStrGo (n + 1) n []

/-- Decimal decoding of a digit sequence, with an accumulator. -/
def parseNatAux (a : Nat) : List Char → Nat
  | [] => a
  | ch :: rest => parseNatAux (10 * a + (ch.toNat - 48)) rest

theorem digitChar_facts : ∀ m : Nat, m < 10 →
    (Nat.digitChar m).toNat - 48 = m ∧ (Nat.digitChar m).isDigit = true := by
  decide

theorem natStrGo_spec : ∀ (fuel n : Nat) (acc : List Char), n < 10 ^ fuel →
    ∃ l, natStrGo (fuel + 1) n acc = l ++ acc ∧ l ≠ [] ∧
      (∀ ch ∈ l, ch.isDigit = true) ∧
      ∀ b, parseNatAux b (l ++ acc) = parseNatAux (b * 10 ^ l.length + n) acc := by
  intro fuel
  induction fuel with
  | zero =>
    intro n acc hn
    have hn10 : n < 10 := by
      have : (10 : Nat) ^ 0 = 1 := by norm_num
      omega
    refine ⟨[Nat.digitChar n], ?_, by simp, ?_, ?_⟩
    · simp [natStrGo, hn10]
    · intro ch hch
      rcases List.mem_singleton.mp hch with rfl
      exact (digitChar_facts n hn10).2
    · intro b
      show parseNatAux (10 * b + ((Nat.digitChar n).toNat - 48)) acc =
        parseNatAux (b * 10 ^ 1 + n) acc
      have h1 := (digitChar_facts n hn10).1
      have h2 : b * 10 ^ 1 = 10 * b := by ring
      rw [h1, h2]
  | succ f ih =>
    intro n acc hn
    by_cases hn10 : n < 10
    · refine ⟨[Nat.digitChar n], ?_, by simp, ?_, ?_⟩
      · simp [natStrGo, hn10]
      · intro ch hch
        rcases List.mem_singleton.mp hch with rfl
        exact (digitChar_facts n hn10).2
      · intro b
        show parseNatAux (10 * b + ((Nat.digitChar n).toNat - 48)) acc =
          parseNatAux (b * 10 ^ 1 + n) acc
        have h1 := (digitChar_facts n hn10).1
        have h2 : b * 10 ^ 1 = 10 * b := by ring
        rw [h1, h2]
    · have hdiv : n / 10 < 10 ^ f := by
        rw [Nat.div_lt_iff_lt_mul (by norm_num)]
        have he : (10 : Nat) ^ (f + 1) = 10 ^ f * 10 := by ring
        omega
      obtain ⟨l, hgo, hne, hdig, hparse⟩ :=
        ih (n / 10) (Nat.digitChar (n % 10) :: acc) hdiv
      have hmod : n % 10 < 10 := Nat.mod_lt _ (by norm_num)
      refine ⟨l ++ [Nat.digitChar (n % 10)], ?_, by simp, ?_, ?_⟩
      · show natStrGo (f + 1 + 1) n acc = (l ++ [Nat.digitChar (n % 10)]) ++ acc
        rw [natStrGo, if_neg hn10, hgo]
        simp
      · intro ch hch
        rcases List.mem_append.mp hch with h | h
        · exact hdig ch h
        · rcases List.mem_singleton.mp h with rfl
          exact (digitChar_facts _ hmod).2
      · intro b
        have e1 : (l ++ [Nat.digitChar (n % 10)]) ++ acc =
            l ++ (Nat.digitChar (n % 10) :: acc) := by simp
        rw [e1, hparse b]
        show parseNatAux (10 * (b * 10 ^ l.length + n / 10) +
          ((Nat.digitChar (n % 10)).toNat - 48)) acc =
          parseNatAux (b * 10 ^ (l ++ [Nat.digitChar (n % 10)]).length + n) acc
        have h1 := (digitChar_facts _ hmod).1
        have h2 : (l ++ [Nat.digitChar (n % 10)]).length = l.length + 1 := by simp
        have h3 : b * 10 ^ (l.length + 1) = (b * 10 ^ l.length) * 10 := by ring
        have hdm := Nat.div_add_mod n 10
        rw [h1, h2, h3]
        have h4 : 10 * (b * 10 ^ l.length + n / 10) + n % 10 =
            b * 10 ^ l.length * 10 + n := by omega
        rw [h4]

theorem natStr_spec (n : Nat) :
    natStr n ≠ [] ∧ (∀ ch ∈ natStr n, ch.isDigit = true) ∧
      parseNatAux 0 (natStr n) = n := by
  have hn : n < 10 ^ n := by
    have h1 : n < 2 ^ n := Nat.lt_two_pow n
    have h2 : (2 : Nat) ^ n ≤ 10 ^ n := Nat.pow_le_pow_left (by norm_num) n
    omega
  obtain ⟨l, hgo, hne, hdig, hparse⟩ := natStrGo_spec n n [] hn
  have hl : natStr n = l := by
    rw [natStr, hgo, List.append_nil]
  refine ⟨by rw [hl]; exact hne, by rw [hl]; exact hdig, ?_⟩
  rw [hl]
  have hp := hparse 0
  rw [List.append_nil] at hp
  rw [hp]
  have hz : 0 * 10 ^ l.length + n = n := by omega
  rw [hz]
  rfl

theorem natStr_inj {m n : Nat} (h : natStr m = natStr n) : m = n := by
  have hm := (natStr_spec m).2.2
  have hn := (natStr_spec n).2.2
  rw [h] at hm
  omega

theorem append_cons_inj_of_not_mem_left {α : Type} [DecidableEq α] (d : α) :
    ∀ (l₁ l₂ r₁ r₂ : List α), l₁ ++ d :: r₁ = l₂ ++ d :: r₂ →
      d ∉ l₁ → d ∉ l₂ → l₁ = l₂ ∧ r₁ = r₂ := by
  intro l₁
  induction l₁ with
  | nil =>
    intro l₂ r₁ r₂ h h₁ h₂
    cases l₂ with
    | nil =>
      simp only [List.nil_append] at h
      exact ⟨rfl, (List.cons.injEq _ _ _ _).mp h |>.2⟩
    | cons c l₂ =>
      exfalso
      simp only [List.nil_append, List.cons_append] at h
      obtain ⟨hh, _⟩ := (List.cons.injEq _ _ _ _).mp h
      exact h₂ (hh ▸ List.mem_cons_self _ _)
  | cons c l₁ ih =>
    intro l₂ r₁ r₂ h h₁ h₂
    cases l₂ with
    | nil =>
      exfalso
      simp only [List.nil_append, List.cons_append] at h
      obtain ⟨hh, _⟩ := (List.cons.injEq _ _ _ _).mp h
      exact h₁ (hh ▸ List.mem_cons_self _ _)
    | cons c₂ l₂ =>
      simp only [List.cons_append] at h
      obtain ⟨hh, ht⟩ := (List.cons.injEq _ _ _ _).mp h
      obtain ⟨he, hr⟩ := ih l₂ r₁ r₂ ht (fun hm => h₁ (List.mem_cons_of_mem _ hm))
        (fun hm => h₂ (List.mem_cons_of_mem _ hm))
      exact ⟨by rw [hh, he], hr⟩

theorem append_cons_inj_of_not_mem_right {α : Type} [DecidableEq α] (d : α) :
    ∀ (l₁ l₂ r₁ r₂ : List α), l₁ ++ d :: r₁ = l₂ ++ d :: r₂ →
      d ∉ r₁ → d ∉ r₂ → l₁ = l₂ ∧ r₁ = r₂ := by
  intro l₁
  induction l₁ with
  | nil =>
    intro l₂ r₁ r₂ h h₁ h₂
    cases l₂ with
    | nil =>
      simp only [List.nil_append] at h
      exact ⟨rfl, (List.cons.injEq _ _ _ _).mp h |>.2⟩
    | cons c l₂ =>
      exfalso
      simp only [List.nil_append, List.cons_append] at h
      obtain ⟨hh, ht⟩ := (List.cons.injEq _ _ _ _).mp h
      apply h₁
      rw [ht]
      exact List.mem_append_right _ (List.mem_cons_self _ _)
  | cons c l₁ ih =>
    intro l₂ r₁ r₂ h h₁ h₂
    cases l₂ with
    | nil =>
      exfalso
      simp only [List.nil_append, List.cons_append] at h
      obtain ⟨hh, ht⟩ := (List.cons.injEq _ _ _ _).mp h
      apply h₂
      rw [← ht]
      exact List.mem_append_right _ (List.mem_cons_self _ _)
    | cons c₂ l₂ =>
      simp only [List.cons_append] at h
      obtain ⟨hh, ht⟩ := (List.cons.injEq _ _ _ _).mp h
      obtain ⟨he, hr⟩ := ih l₂ r₁ r₂ ht h₁ h₂
      exact ⟨by rw [hh, he], hr⟩

/-- Modelled from the spec: coordinate key of a chunk: the coordinate
components rendered in decimal, joined with the "." delimiter
(section 4.4), e.g. "0.2.1". -/
def coordKey : List Nat → List Char
  | [] => []
  | [i] => natStr i
  | i :: rest => natStr i ++ '.' :: coordKey rest

theorem coordKey_chars : ∀ (c : List Nat), ∀ ch ∈ coordKey c,
    ch.isDigit = true ∨ ch = '.' := by
  intro c
  induction c with
  | nil => intro ch hch; simp [coordKey] at hch
  | cons i rest ih =>
    intro ch hch
    cases rest with
    | nil =>
      exact Or.inl ((natStr_spec i).2.1 ch hch)
    | cons k r =>
      have hch2 : ch ∈ natStr i ++ '.' :: coordKey (k :: r) := hch
      rcases List.mem_append.mp hch2 with h | h
      · exact Or.inl ((natStr_spec i).2.1 ch h)
      · rcases List.mem_cons.mp h with rfl | h
        · exact Or.inr rfl
        · exact ih ch h

theorem coordKey_no_slash (c : List Nat) : '/' ∉ coordKey c := by
  intro hmem
  rcases coordKey_chars c _ hmem with h | h
  · exact absurd h (by decide)
  · exact absurd h (by decide)

theorem coordKey_ne_nil : ∀ (c : List Nat), c ≠ [] → coordKey c ≠ [] := by
  intro c hc
  cases c with
  | nil => exact absurd rfl hc
  | cons i rest =>
    cases rest with
    | nil => exact (natStr_spec i).1
    | cons k r =>
      show natStr i ++ '.' :: coordKey (k :: r) ≠ []
      intro h
      rcases List.append_eq_nil.mp h with ⟨h1, h2⟩
      exact absurd h2 (by simp)

theorem dot_not_mem_natStr (i : Nat) : '.' ∉ natStr i := by
  intro hmem
  have := (natStr_spec i).2.1 _ hmem
  exact absurd this (by decide)

theorem coordKey_inj : ∀ (c₁ c₂ : List Nat), coordKey c₁ = coordKey c₂ → c₁ = c₂ := by
  intro c₁
  induction c₁ with
  | nil =>
    intro c₂ h
    cases c₂ with
    | nil => rfl
    | cons j rest₂ =>
      exact absurd h.symm (coordKey_ne_nil (j :: rest₂) (by simp))
  | cons i rest₁ ih =>
    intro c₂ h
    cases c₂ with
    | nil =>
      exact absurd h (coordKey_ne_nil (i :: rest₁) (by simp))
    | cons j rest₂ =>
      cases rest₁ with
      | nil =>
        cases rest₂ with
        | nil =>
          have h2 : natStr i = natStr j := h
          rw [natStr_inj h2]
        | cons k₂ r₂ =>
          exfalso
          have h2 : natStr i = natStr j ++ '.' :: coordKey (k₂ :: r₂) := h
          apply dot_not_mem_natStr i
          rw [h2]
          exact List.mem_append_right _ (List.mem_cons_self _ _)
      | cons k₁ r₁ =>
        cases rest₂ with
        | nil =>
          exfalso
          have h2 : natStr i ++ '.' :: coordKey (k₁ :: r₁) = natStr j := h
          apply dot_not_mem_natStr j
          rw [← h2]
          exact List.mem_append_right _ (List.mem_cons_self _ _)
        | cons k₂ r₂ =>
          have h2 : natStr i ++ '.' :: coordKey (k₁ :: r₁) =
              natStr j ++ '.' :: coordKey (k₂ :: r₂) := h
          obtain ⟨h3, h4⟩ := append_cons_inj_of_not_mem_left '.' _ _ _ _ h2
            (dot_not_mem_natStr i) (dot_not_mem_natStr j)
          have h5 := ih (k₂ :: r₂) h4
          rw [natStr_inj h3, h5]

/-- Modelled from the spec: the refs key of a chunk in the nested form:
the variable name, the "/" delimiter, then the coordinate key
(section 6). -/
def refKey (name : String) (c : List Nat) : List Char :=
  name.data ++ '/' :: coordKey c

theorem string_data_inj {s t : String} (h : s.data = t.data) : s = t := by
  cases s
  cases t
  cases h
  rfl

theorem refKey_inj {n₁ n₂ : String} {c₁ c₂ : List Nat}
    (h : refKey n₁ c₁ = refKey n₂ c₂) : n₁ = n₂ ∧ c₁ = c₂ := by
  obtain ⟨h1, h2⟩ := append_cons_inj_of_not_mem_right '/' _ _ _ _ h
    (coordKey_no_slash c₁) (coordKey_no_slash c₂)
  exact ⟨string_data_inj h1, coordKey_inj _ _ h2⟩

/-- Modelled from the spec: a VirtualDataset: an ordered variable mapping
with unique names, dimension bindings and attributes (section 3). -/
structure VirtualDataset where
  vars : List (String × ManifestArray)
  dims : List (String × Nat)
  attrs : List (String × String)
  deriving DecidableEq, Repr

/-- Modelled from the spec: the per-variable metadata block of the
reference formats (section 6): dtype, shape, chunk shape, fill value and
codec chain. -/
structure VarMeta where
  dtype : String
  shape : List Nat
  chunk_shape : List Nat
  fill_value : Int
  codecs : List String
  deriving DecidableEq, Repr

/-- The metadata block emitted for one variable. -/
def metaOf (arr : ManifestArray) : VarMeta :=
  ⟨arr.encoding.dtype, arr.shape, arr.encoding.chunk_shape,
   arr.encoding.fill_value, arr.encoding.codecs⟩

/-- The encoding recovered from a metadata block. -/
def encOfMeta (vm : VarMeta) : Encoding :=
  ⟨vm.dtype, vm.codecs, vm.fill_value, vm.chunk_shape⟩

/-- Modelled from the spec: the nested JSON-like reference form
(section 6): version, per-variable metadata blocks, refs keyed by
"<variable>/<coord.key>", attributes and dimension bindings.  Absent
chunks carry no ref. -/
structure NestedForm where
  version : Nat
  meta : List (String × VarMeta)
  refs : List (List Char × ChunkEntry)
  attrs : List (String × String)
  dims : List (String × Nat)
  deriving DecidableEq, Repr

/-- Modelled from the spec: one row of the flat columnar reference form
(section 6): variable, coordinate key, path, offset, length. -/
structure ColumnarRow where
  var : String
  coordinate_key : List Char
  path : String
  offset : Nat
  length : Nat
  deriving DecidableEq, Repr

/-- Modelled from the spec: the flat columnar table with the same
metadata side channel as the nested form. -/
structure ColumnarForm where
  rows : List ColumnarRow
  meta : List (String × VarMeta)
  attrs : List (String × String)
  dims : List (String × Nat)
  deriving DecidableEq, Repr

/-- The present chunks of a manifest with their coordinates, row-major. -/
def presentCells (m : ChunkManifest) : List (List Nat × ChunkEntry) :=
  (allCoords m.grid_size).filterMap (fun c => (m.cell c).map (fun e => (c, e)))

/-- The reference list of a variable mapping under an abstract chunk-key
constructor: one entry per present chunk, in variable order. -/
def refsOf {κ : Type} (key : String → List Nat → κ)
    (vars : List (String × ManifestArray)) : List (κ × ChunkEntry) :=
  vars.flatMap (fun p => (presentCells p.2.manifest).map
    (fun q => (key p.1 q.1, q.2)))

/-- Modelled from the spec: serialization to the nested form (section 4.4):
per-variable metadata plus one (path, offset, length) ref per present
chunk keyed by "<variable>/<coord.key>"; absent chunks are omitted. -/
def serializeNested (ds : VirtualDataset) : NestedForm :=
  ⟨1,
   ds.vars.map (fun p => (p.1, metaOf p.2)),
   refsOf refKey ds.vars,
   ds.attrs, ds.dims⟩

/-- Modelled from the spec: serialization to the flat columnar form
(section 4.4): one row per present chunk reference. -/
def serializeColumnar (ds : VirtualDataset) : ColumnarForm :=
  ⟨ds.vars.flatMap (fun p => (presentCells p.2.manifest).map
     (fun q => ⟨p.1, coordKey q.1, q.2.path, q.2.offset, q.2.length⟩)),
   ds.vars.map (fun p => (p.1, metaOf p.2)),
   ds.attrs, ds.dims⟩

/-- First-match lookup in a key-to-entry association list. -/
def lookupBy {κ : Type} [DecidableEq κ] (k : κ) : List (κ × ChunkEntry) → Option ChunkEntry
  | [] => none
  | (k₂, e) :: rest => if k = k₂ then some e else lookupBy k rest

/-- The declared chunk grid of a variable, computed from its metadata. -/
def gridOf (shape chunk : List Nat) : List Nat :=
  (List.range shape.length).map (fun i => ceilDiv (shape.getD i 0) (chunk.getD i 1))

/-- Modelled from the spec: deserialization of one variable from the
nested form: the dense manifest is rebuilt from the declared shape and
chunk shape, reading each coordinate's ref by its key (a missing key is
the absent marker); geometry violations surface as
MalformedReferenceError. -/
def reconstructArray (refs : List (List Char × ChunkEntry)) (name : String)
    (vm : VarMeta) : Except VError ManifestArray :=
  match ManifestArray.mk? vm.shape (encOfMeta vm)
    ⟨gridOf vm.shape vm.chunk_shape,
     (allCoords (gridOf vm.shape vm.chunk_shape)).map
       (fun c => lookupBy (refKey name c) refs)⟩ with
  | .ok arr => .ok arr
  | .error _ => .error .MalformedReferenceError

/-- Reconstruction of the ordered variable list from metadata blocks. -/
def reconstructVars (refs : List (List Char × ChunkEntry)) :
    List (String × VarMeta) → Except VError (List (String × ManifestArray))
  | [] => .ok []
  | (n, vm) :: rest =>
    match reconstructArray refs n vm with
    | .error err => .error err
    | .ok arr =>
      match reconstructVars refs rest with
      | .error err => .error err
      | .ok tail => .ok ((n, arr) :: tail)

/-- Modelled from the spec: deserialization of the nested form. -/
def deserializeNested (nf : NestedForm) : Except VError VirtualDataset :=
  match reconstructVars nf.refs nf.meta with
  | .error err => .error err
  | .ok vars => .ok ⟨vars, nf.dims, nf.attrs⟩

/-- The columnar rows viewed as a (variable, coordinate key) association. -/
def rowsToPairs (rows : List ColumnarRow) : List ((String × List Char) × ChunkEntry) :=
  rows.map (fun r => ((r.var, r.coordinate_key), ⟨r.path, r.offset, r.length⟩))

/-- Modelled from the spec: deserialization of one variable from the
columnar form, by (variable, coordinate key) lookup. -/
def reconstructArrayC (rows : List ColumnarRow) (name : String)
    (vm : VarMeta) : Except VError ManifestArray :=
  match ManifestArray.mk? vm.shape (encOfMeta vm)
    ⟨gridOf vm.shape vm.chunk_shape,
     (allCoords (gridOf vm.shape vm.chunk_shape)).map
       (fun c => lookupBy (name, coordKey c) (rowsToPairs rows))⟩ with
  | .ok arr => .ok arr
  | .error _ => .error .MalformedReferenceError

/-- Reconstruction of the ordered variable list from the columnar form. -/
def reconstructVarsC (rows : List ColumnarRow) :
    List (String × VarMeta) → Except VError (List (String × ManifestArray))
  | [] => .ok []
  | (n, vm) :: rest =>
    match reconstructArrayC rows n vm with
    | .error err => .error err
    | .ok arr =>
      match reconstructVarsC rows rest with
      | .error err => .error err
      | .ok tail => .ok ((n, arr) :: tail)

/-- Modelled from the spec: deserialization of the columnar form. -/
def deserializeColumnar (cf : ColumnarForm) : Except VError VirtualDataset :=
  match reconstructVarsC cf.rows cf.meta with
  | .error err => .error err
  | .ok vars => .ok ⟨vars, cf.dims, cf.attrs⟩

/-- Uniqueness of variable names in a variable list. -/
def distinctNames : List (String × ManifestArray) → Bool
  | [] => true
  | (n, _) :: rest => rest.all (fun q => decide (n ≠ q.1)) && distinctNames rest

/-- Modelled from the spec: a valid VirtualDataset: unique variable names
and every variable geometry-valid with a dense manifest (section 3). -/
def VirtualDataset.valid (ds : VirtualDataset) : Bool :=
  distinctNames ds.vars && ds.vars.all (fun p => p.2.valid)

theorem lookupBy_cons {κ : Type} [DecidableEq κ] (k k₂ : κ) (e : ChunkEntry)
    (rest : List (κ × ChunkEntry)) :
    lookupBy k ((k₂, e) :: rest) = if k = k₂ then some e else lookupBy k rest := rfl

theorem presentFilter_cons_none (m : ChunkManifest) (d : List Nat) (L : List (List Nat))
    (hcell : m.cell d = none) :
    (d :: L).filterMap (fun x => (m.cell x).map (fun e => (x, e))) =
      L.filterMap (fun x => (m.cell x).map (fun e => (x, e))) := by
  rw [List.filterMap_cons, hcell]
  rfl

theorem presentFilter_cons_some (m : ChunkManifest) (d : List Nat) (L : List (List Nat))
    (e : ChunkEntry) (hcell : m.cell d = some e) :
    (d :: L).filterMap (fun x => (m.cell x).map (fun e => (x, e))) =
      (d, e) :: L.filterMap (fun x => (m.cell x).map (fun e => (x, e))) := by
  rw [List.filterMap_cons, hcell]
  rfl

theorem lookupBy_eq_none {κ : Type} [DecidableEq κ] {k : κ} :
    ∀ {l : List (κ × ChunkEntry)}, (∀ p ∈ l, p.1 ≠ k) → lookupBy k l = none := by
  intro l
  induction l with
  | nil => intro _; rfl
  | cons p rest ih =>
    intro h
    obtain ⟨k₂, e⟩ := p
    rw [lookupBy_cons, if_neg (fun hk => h (k₂, e) (List.mem_cons_self _ _) hk.symm)]
    exact ih (fun q hq => h q (List.mem_cons_of_mem _ hq))

theorem lookupBy_append {κ : Type} [DecidableEq κ] (k : κ)
    (l₁ l₂ : List (κ × ChunkEntry)) (h : lookupBy k l₁ = none) :
    lookupBy k (l₁ ++ l₂) = lookupBy k l₂ := by
  induction l₁ with
  | nil => rfl
  | cons p rest ih =>
    obtain ⟨k₂, e⟩ := p
    rw [lookupBy_cons] at h
    by_cases hk : k = k₂
    · rw [if_pos hk] at h
      exact absurd h (by simp)
    · rw [if_neg hk] at h
      rw [List.cons_append, lookupBy_cons, if_neg hk]
      exact ih h

theorem lookupBy_append_some {κ : Type} [DecidableEq κ] (k : κ)
    (l₁ l₂ : List (κ × ChunkEntry)) (e : ChunkEntry) (h : lookupBy k l₁ = some e) :
    lookupBy k (l₁ ++ l₂) = some e := by
  induction l₁ with
  | nil => exact absurd h (by simp [lookupBy])
  | cons p rest ih =>
    obtain ⟨k₂, e₂⟩ := p
    rw [lookupBy_cons] at h
    by_cases hk : k = k₂
    · rw [if_pos hk] at h
      rw [List.cons_append, lookupBy_cons, if_pos hk]
      exact h
    · rw [if_neg hk] at h
      rw [List.cons_append, lookupBy_cons, if_neg hk]
      exact ih h

theorem lookupBy_block_not_mem {κ : Type} [DecidableEq κ] (m : ChunkManifest)
    (F : List Nat → κ) (hinj : ∀ c₁ c₂, F c₁ = F c₂ → c₁ = c₂) (c : List Nat) :
    ∀ (L : List (List Nat)), c ∉ L →
      lookupBy (F c) ((L.filterMap (fun x => (m.cell x).map (fun e => (x, e)))).map
        (fun q => (F q.1, q.2))) = none := by
  intro L
  induction L with
  | nil => intro _; rfl
  | cons d L ih =>
    intro hnm
    have hcd : c ≠ d := fun h => hnm (h ▸ List.mem_cons_self _ _)
    have hcL : c ∉ L := fun h => hnm (List.mem_cons_of_mem _ h)
    cases hcell : m.cell d with
    | none =>
      rw [presentFilter_cons_none m d L hcell]
      exact ih hcL
    | some e =>
      rw [presentFilter_cons_some m d L e hcell, List.map_cons, lookupBy_cons,
        if_neg (fun hk => hcd (hinj _ _ hk))]
      exact ih hcL

theorem lookupBy_block_mem {κ : Type} [DecidableEq κ] (m : ChunkManifest)
    (F : List Nat → κ) (hinj : ∀ c₁ c₂, F c₁ = F c₂ → c₁ = c₂) (c : List Nat) :
    ∀ (L : List (List Nat)), L.Nodup → c ∈ L →
      lookupBy (F c) ((L.filterMap (fun x => (m.cell x).map (fun e => (x, e)))).map
        (fun q => (F q.1, q.2))) = m.cell c := by
  intro L
  induction L with
  | nil => intro _ hmem; cases hmem
  | cons d L ih =>
    intro hnd hmem
    have hndL : L.Nodup := (List.nodup_cons.mp hnd).2
    have hdL : d ∉ L := (List.nodup_cons.mp hnd).1
    rcases List.mem_cons.mp hmem with rfl | hmL
    · cases hcell : m.cell c with
      | none =>
        rw [presentFilter_cons_none m c L hcell]
        exact lookupBy_block_not_mem m F hinj c L hdL
      | some e =>
        rw [presentFilter_cons_some m c L e hcell, List.map_cons, lookupBy_cons,
          if_pos rfl]
    · have hcd : c ≠ d := fun h => hdL (h ▸ hmL)
      cases hcell : m.cell d with
      | none =>
        rw [presentFilter_cons_none m d L hcell]
        exact ih hndL hmL
      | some e =>
        rw [presentFilter_cons_some m d L e hcell, List.map_cons, lookupBy_cons,
          if_neg (fun hk => hcd (hinj _ _ hk))]
        exact ih hndL hmL

theorem lookupBy_refsOf {κ : Type} [DecidableEq κ]
    (key : String → List Nat → κ)
    (hkinj : ∀ n₁ c₁ n₂ c₂, key n₁ c₁ = key n₂ c₂ → n₁ = n₂ ∧ c₁ = c₂) :
    ∀ (vars : List (String × ManifestArray)), distinctNames vars = true →
      ∀ (n : String) (arr : ManifestArray), (n, arr) ∈ vars →
      ∀ (c : List Nat), inBounds arr.manifest.grid_size c = true →
      lookupBy (key n c) (refsOf key vars) = arr.manifest.cell c := by
  intro vars
  induction vars with
  | nil => intro _ n arr hmem; cases hmem
  | cons p rest ih =>
    intro hd n arr hmem c hc
    obtain ⟨pn, parr⟩ := p
    have hd2 : distinctNames rest = true ∧ ∀ q ∈ rest, pn ≠ q.1 := by
      rw [distinctNames] at hd
      simp only [Bool.and_eq_true, List.all_eq_true, decide_eq_true_eq] at hd
      exact ⟨hd.2, hd.1⟩
    have hrefs : refsOf key ((pn, parr) :: rest) =
        ((presentCells parr.manifest).map (fun q => (key pn q.1, q.2))) ++
          refsOf key rest := by
      rw [refsOf, refsOf, List.flatMap_cons]
    rcases List.mem_cons.mp hmem with heq | hmemrest
    · obtain ⟨rfl, rfl⟩ : pn = n ∧ parr = arr :=
        ⟨(congrArg Prod.fst heq).symm, (congrArg Prod.snd heq).symm⟩
      rw [hrefs]
      have hinj : ∀ c₁ c₂, key pn c₁ = key pn c₂ → c₁ = c₂ :=
        fun c₁ c₂ hk => (hkinj pn c₁ pn c₂ hk).2
      have hblock : lookupBy (key pn c)
          ((presentCells parr.manifest).map (fun q => (key pn q.1, q.2))) =
          parr.manifest.cell c :=
        lookupBy_block_mem parr.manifest (key pn) hinj c
          (allCoords parr.manifest.grid_size) (nodup_allCoords _)
          ((mem_allCoords _ c).mpr hc)
      cases hcellv : parr.manifest.cell c with
      | none =>
        rw [hcellv] at hblock
        rw [lookupBy_append _ _ _ hblock]
        apply lookupBy_eq_none
        intro q hq hqk
        rw [refsOf, List.mem_flatMap] at hq
        obtain ⟨p₂, hp₂, hq₂⟩ := hq
        rw [List.mem_map] at hq₂
        obtain ⟨q₂, _, rfl⟩ := hq₂
        have hname : p₂.1 = pn := (hkinj _ _ _ _ hqk).1
        exact hd2.2 p₂ hp₂ hname.symm
      | some e =>
        rw [hcellv] at hblock
        rw [lookupBy_append_some _ _ _ _ hblock]
    · rw [hrefs]
      have hskip : lookupBy (key n c)
          ((presentCells parr.manifest).map (fun q => (key pn q.1, q.2))) = none := by
        apply lookupBy_eq_none
        intro q hq hqk
        rw [List.mem_map] at hq
        obtain ⟨q₂, _, rfl⟩ := hq
        have hname : pn = n := (hkinj _ _ _ _ hqk).1
        exact hd2.2 (n, arr) hmemrest hname
      rw [lookupBy_append _ _ _ hskip]
      exact ih hd2.1 n arr hmemrest c hc

theorem gridOf_eq_valid {A : ManifestArray} (h : A.valid = true) :
    gridOf A.shape A.encoding.chunk_shape = A.manifest.grid_size := by
  obtain ⟨hlc, hlg, hwf, hgeom⟩ := valid_facts h
  apply List.ext_getElem?
  intro j
  rcases Nat.lt_or_ge j A.shape.length with hj | hj
  · rw [gridOf, List.getElem?_map, List.getElem?_range hj]
    have hjg : j < A.manifest.grid_size.length := by omega
    rw [List.getElem?_eq_getElem hjg]
    have hgd : A.manifest.grid_size.getD j 0 = A.manifest.grid_size[j] := by
      rw [List.getD_eq_getElem?_getD, List.getElem?_eq_getElem hjg]
      rfl
    have hg := (geomOk1_bounds (hgeom j hj)).2.2.1
    show some (ceilDiv (A.shape.getD j 0) (A.encoding.chunk_shape.getD j 1)) =
      some (A.manifest.grid_size[j])
    rw [← hgd, hg]
    rfl
  · rw [List.getElem?_eq_none (by rw [gridOf]; simp; omega),
      List.getElem?_eq_none (by omega)]

theorem mkFromLookup_eq (arr : ManifestArray) (hv : arr.valid = true)
    (lookupF : List Nat → Option ChunkEntry)
    (hl : ∀ c, inBounds arr.manifest.grid_size c = true →
      lookupF c = arr.manifest.cell c) :
    ManifestArray.mk? (metaOf arr).shape (encOfMeta (metaOf arr))
      ⟨gridOf (metaOf arr).shape (metaOf arr).chunk_shape,
       (allCoords (gridOf (metaOf arr).shape (metaOf arr).chunk_shape)).map lookupF⟩ =
      .ok arr := by
  have hgrid := gridOf_eq_valid hv
  show ManifestArray.mk? arr.shape arr.encoding
      ⟨gridOf arr.shape arr.encoding.chunk_shape,
       (allCoords (gridOf arr.shape arr.encoding.chunk_shape)).map lookupF⟩ = .ok arr
  rw [hgrid]
  have hcells : (allCoords arr.manifest.grid_size).map lookupF = arr.manifest.cells := by
    rw [← map_cell_allCoords arr.manifest (valid_facts hv).2.2.1]
    apply List.map_congr_left
    intro c hc
    exact hl c ((mem_allCoords _ c).mp hc)
  rw [hcells]
  show ManifestArray.mk? arr.shape arr.encoding arr.manifest = .ok arr
  unfold ManifestArray.mk?
  have hcheck : checkGeometry arr.shape arr.encoding.chunk_shape
      arr.manifest.grid_size = true := by
    unfold ManifestArray.valid at hv
    rw [Bool.and_eq_true] at hv
    exact hv.1
  rw [if_pos hcheck]

theorem reconstructArray_roundtrip (refs : List (List Char × ChunkEntry))
    (n : String) (arr : ManifestArray) (hv : arr.valid = true)
    (hl : ∀ c, inBounds arr.manifest.grid_size c = true →
      lookupBy (refKey n c) refs = arr.manifest.cell c) :
    reconstructArray refs n (metaOf arr) = .ok arr := by
  unfold reconstructArray
  rw [mkFromLookup_eq arr hv _ hl]

theorem reconstructArrayC_roundtrip (rows : List ColumnarRow)
    (n : String) (arr : ManifestArray) (hv : arr.valid = true)
    (hl : ∀ c, inBounds arr.manifest.grid_size c = true →
      lookupBy (n, coordKey c) (rowsToPairs rows) = arr.manifest.cell c) :
    reconstructArrayC rows n (metaOf arr) = .ok arr := by
  unfold reconstructArrayC
  rw [mkFromLookup_eq arr hv _ hl]

theorem reconstructVars_of (refs : List (List Char × ChunkEntry)) :
    ∀ (vs : List (String × ManifestArray)),
      (∀ p ∈ vs, reconstructArray refs p.1 (metaOf p.2) = .ok p.2) →
      reconstructVars refs (vs.map (fun p => (p.1, metaOf p.2))) = .ok vs := by
  intro vs
  induction vs with
  | nil => intro _; rfl
  | cons p rest ih =>
    intro h
    obtain ⟨n, arr⟩ := p
    have hhead := h (n, arr) (List.mem_cons_self _ _)
    have htail := ih (fun q hq => h q (List.mem_cons_of_mem _ hq))
    show (match reconstructArray refs n (metaOf arr) with
      | Except.error err => (Except.error err : Except VError (List (String × ManifestArray)))
      | Except.ok arr2 =>
        match reconstructVars refs (rest.map (fun p => (p.1, metaOf p.2))) with
        | Except.error err => Except.error err
        | Except.ok tail => Except.ok ((n, arr2) :: tail)) =
      Except.ok ((n, arr) :: rest)
    rw [hhead, htail]

theorem reconstructVarsC_of (rows : List ColumnarRow) :
    ∀ (vs : List (String × ManifestArray)),
      (∀ p ∈ vs, reconstructArrayC rows p.1 (metaOf p.2) = .ok p.2) →
      reconstructVarsC rows (vs.map (fun p => (p.1, metaOf p.2))) = .ok vs := by
  intro vs
  induction vs with
  | nil => intro _; rfl
  | cons p rest ih =>
    intro h
    obtain ⟨n, arr⟩ := p
    have hhead := h (n, arr) (List.mem_cons_self _ _)
    have htail := ih (fun q hq => h q (List.mem_cons_of_mem _ hq))
    show (match reconstructArrayC rows n (metaOf arr) with
      | Except.error err => (Except.error err : Except VError (List (String × ManifestArray)))
      | Except.ok arr2 =>
        match reconstructVarsC rows (rest.map (fun p => (p.1, metaOf p.2))) with
        | Except.error err => Except.error err
        | Except.ok tail => Except.ok ((n, arr2) :: tail)) =
      Except.ok ((n, arr) :: rest)
    rw [hhead, htail]

theorem rowsToPairs_serialize (ds : VirtualDataset) :
    rowsToPairs (serializeColumnar ds).rows =
      refsOf (fun n c => (n, coordKey c)) ds.vars := by
  show rowsToPairs (ds.vars.flatMap (fun p => (presentCells p.2.manifest).map
      (fun q => ⟨p.1, coordKey q.1, q.2.path, q.2.offset, q.2.length⟩))) =
    refsOf (fun n c => (n, coordKey c)) ds.vars
  rw [rowsToPairs, refsOf, List.map_flatMap]
  simp only [List.map_map]
  rfl

/-- C1: for every valid VirtualDataset, deserializing the serialization is
the identity, entry-for-entry and attribute-for-attribute, under both the
nested JSON-like encoding and the flat columnar encoding. -/
theorem C1_roundtrip (ds : VirtualDataset) (h : ds.valid = true) :
    deserializeNested (serializeNested ds) = .ok ds ∧
    deserializeColumnar (serializeColumnar ds) = .ok ds := by
  have hdist : distinctNames ds.vars = true := by
    unfold VirtualDataset.valid at h
    rw [Bool.and_eq_true] at h
    exact h.1
  have hvall : ∀ p ∈ ds.vars, ManifestArray.valid p.2 = true := by
    unfold VirtualDataset.valid at h
    rw [Bool.and_eq_true] at h
    have h2 := h.2
    rw [List.all_eq_true] at h2
    exact h2
  constructor
  · have hrec : ∀ p ∈ ds.vars,
        reconstructArray (refsOf refKey ds.vars) p.1 (metaOf p.2) = .ok p.2 := by
      intro p hp
      apply reconstructArray_roundtrip _ _ _ (hvall p hp)
      intro c hc
      have hm : (p.1, p.2) ∈ ds.vars := hp
      exact lookupBy_refsOf refKey (fun n₁ c₁ n₂ c₂ hk => refKey_inj hk)
        ds.vars hdist p.1 p.2 hm c hc
    show (match reconstructVars (refsOf refKey ds.vars)
        (ds.vars.map (fun p => (p.1, metaOf p.2))) with
      | Except.error err => (Except.error err : Except VError VirtualDataset)
      | Except.ok vars => Except.ok ⟨vars, ds.dims, ds.attrs⟩) = Except.ok ds
    rw [reconstructVars_of _ ds.vars hrec]
  · have hrec : ∀ p ∈ ds.vars,
        reconstructArrayC (serializeColumnar ds).rows p.1 (metaOf p.2) = .ok p.2 := by
      intro p hp
      apply reconstructArrayC_roundtrip _ _ _ (hvall p hp)
      intro c hc
      rw [rowsToPairs_serialize]
      have hm : (p.1, p.2) ∈ ds.vars := hp
      have hkinj : ∀ (n₁ : String) (c₁ : List Nat) (n₂ : String) (c₂ : List Nat),
          (n₁, coordKey c₁) = (n₂, coordKey c₂) → n₁ = n₂ ∧ c₁ = c₂ := by
        intro n₁ c₁ n₂ c₂ hk
        have h1 : n₁ = n₂ := congrArg Prod.fst hk
        have h2 : coordKey c₁ = coordKey c₂ := congrArg Prod.snd hk
        exact ⟨h1, coordKey_inj _ _ h2⟩
      exact lookupBy_refsOf (fun n c => (n, coordKey c)) hkinj
        ds.vars hdist p.1 p.2 hm c hc
    show (match reconstructVarsC (serializeColumnar ds).rows
        (ds.vars.map (fun p => (p.1, metaOf p.2))) with
      | Except.error err => (Except.error err : Except VError VirtualDataset)
      | Except.ok vars => Except.ok ⟨vars, ds.dims, ds.attrs⟩) = Except.ok ds
    rw [reconstructVarsC_of _ ds.vars hrec]

/-- Concrete dataset for the C1 round-trip scenario: one variable with a
present and an absent chunk, one dimension binding and one attribute. -/
def dsW : VirtualDataset :=
  ⟨[("temp", ⟨[4], ⟨"i4", ["zlib"], 0, [2]⟩, ⟨[2], [some ⟨"a.nc", 0, 10⟩, none]⟩⟩)],
   [("x", 4)], [("title", "t")]⟩

theorem C1_roundtrip_witness :
    deserializeNested (serializeNested dsW) = .ok dsW ∧
    deserializeColumnar (serializeColumnar dsW) = .ok dsW :=
  C1_roundtrip dsW (by decide)
